import Mathlib

/-!
# Verification of the branch-visualization core of Github-repo-Visualizer

Shallow embedding of `src/utils/visualization.py` (class `BranchVisualizer`):
`assign_branch_colors`, `process_commit_data` and `prepare_visualization_data`.

Modelling conventions:
* Python `dict` (insertion ordered, unique keys) is an association list
  `Dict β := List (String × β)`; assignment `d[k] = v` is `dinsert`, which
  replaces in place on an existing key and appends otherwise, exactly like
  CPython's insertion-order semantics.  Lookup `d[k]` that may raise
  `KeyError` is `dlookup` returning `Option β`.
* `collections.defaultdict(list)` reads (`d[k]`) are `dgetD`, which returns
  the stored list and, on a missing key, inserts `[]` (mutation made explicit
  by returning the updated dictionary).  `d[k].append(x)` is `dappend`.
* `datetime` values (the result of `datetime.strptime(commit['date'], ...)`)
  are modelled as natural numbers ordered like the parsed timestamps; the
  `Commit.date` field holds that number directly.
* Python code that can raise (`KeyError` from a plain dict subscript) is
  modelled in the `Option` monad: `none` is an uncaught exception.
* The `while` walk of `process_commit_data` is modelled with explicit fuel
  `commits.length + 1`; the termination theorem shows this fuel is
  sufficient (the result is fuel-independent) whenever the first-parent
  graph is acyclic.
-/

/-- A record of the commit list supplied by the data provider
(`github_data.get_commit_data`): sha, message, author, parsed date, parents. -/
structure Commit where
  sha : String
  message : String
  author : String
  date : Nat
  parents : List String
deriving Repr, DecidableEq

/-- A record of the branch list supplied by the data provider: `name`,
`commit` (tip sha) and the `protected` flag (unused by the core). -/
structure Branch where
  name : String
  commit : String
  «protected» : Bool
deriving Repr, DecidableEq

/-- Insertion-ordered dictionary with `String` keys, as a list of pairs. -/
abbrev Dict (β : Type) : Type := List (String × β)

/-- Python `d[k]` as a total function: `none` models a raised `KeyError`
(first matching entry; dictionaries built below never repeat a key). -/
def dlookup {β : Type} (d : Dict β) (k : String) : Option β :=
  match d with
  | [] => none
  | (k', v) :: rest => if k' = k then some v else dlookup rest k

/-- Python `d[k] = v`: replace in place if the key exists, else append
(insertion-order dict semantics). -/
def dinsert {β : Type} (k : String) (v : β) : Dict β → Dict β
  | [] => [(k, v)]
  | (k', v') :: rest =>
      if k' = k then (k, v) :: rest else (k', v') :: dinsert k v rest

/-- `defaultdict(list)`: `d[k].append(x)` — appends to the stored list,
creating the entry `[x]` on a missing key. -/
def dappend (k : String) (x : String) : Dict (List String) → Dict (List String)
  | [] => [(k, [x])]
  | (k', l) :: rest =>
      if k' = k then (k', l ++ [x]) :: rest else (k', l) :: dappend k x rest

/-- `defaultdict(list)` read `d[k]`: returns the stored list, inserting `[]`
for a missing key (the mutation is returned as the second component). -/
def dgetD (d : Dict (List String)) (k : String) : List String × Dict (List String) :=
  match dlookup d k with
  | some l => (l, d)
  | none => ([], d ++ [(k, [])])

/-- Keys of a dictionary, in order. -/
def dkeys {β : Type} (d : Dict β) : List String := d.map Prod.fst

/-- Python `needle in hay` on strings over char lists: contiguous
substring occurrence. -/
def subOccurs (needle : List Char) : List Char → Bool
  | [] => needle.isEmpty
  | c :: t => needle.isPrefixOf (c :: t) || subOccurs needle t

/-- Python `needle in hay` for strings. -/
def pyStrIn (needle hay : String) : Bool :=
  subOccurs needle.toList hay.toList

/-- Python `s.lower()`, modelled character-wise (the branch-name keywords
are ASCII, where this agrees with `str.lower`). -/
def pyLower (s : String) : String :=
  ⟨s.toList.map Char.toLower⟩

/-- `self.branch_colors` — the keyword → color table, in the source's
insertion order. -/
def branchColorsTable : List (String × String) :=
  [("main", "#2ECC71"), ("master", "#2ECC71"), ("develop", "#3498DB"),
   ("release", "#E74C3C"), ("feature", "#9B59B6"), ("hotfix", "#E67E22"),
   ("bugfix", "#F1C40F")]

/-- `self.default_colors` — the rotating fallback palette. -/
def defaultColors : List String :=
  ["#1ABC9C", "#16A085", "#27AE60", "#2980B9", "#8E44AD",
   "#2C3E50", "#F39C12", "#D35400", "#C0392B", "#BDC3C7"]

/-- The inner `for branch_type, color in self.branch_colors.items()` loop
with its `break`: the color of the first keyword that is a substring of the
lowercased branch name, if any. -/
def firstKeywordColor (branchName : String) : Option String :=
  (branchColorsTable.find? (fun kv => pyStrIn kv.1 (pyLower branchName))).map
    Prod.snd

/-- Body of `assign_branch_colors`, threading `(branch_to_color, used_colors)`
through the loop over `branch_data`. -/
def assignBranchColorsAux : List Branch → Dict String → Nat → Dict String
  | [], acc, _ => acc
  | b :: rest, acc, used =>
      match firstKeywordColor b.name with
      | some color => assignBranchColorsAux rest (dinsert b.name color acc) used
      | none =>
          assignBranchColorsAux rest
            (dinsert b.name
              ((defaultColors.get? (used % defaultColors.length)).getD "") acc)
            (used + 1)

/-- `BranchVisualizer.assign_branch_colors`. -/
def assignBranchColors (branchData : List Branch) : Dict String :=
  assignBranchColorsAux branchData [] 0

/-- `branch_tips = {branch['name']: branch['commit'] for branch in branch_data}`. -/
def branchTipsOf (branchData : List Branch) : Dict String :=
  branchData.foldl (fun d b => dinsert b.name b.commit d) []

/-- `commit_parents = {commit['sha']: commit['parents'] for commit in commits_data}`. -/
def commitParentsOf (commitsData : List Commit) : Dict (List String) :=
  commitsData.foldl (fun d c => dinsert c.sha c.parents d) []

/-- `commit_dates = {commit['sha']: strptime(commit['date']) for commit in commits_data}`. -/
def commitDatesOf (commitsData : List Commit) : Dict Nat :=
  commitsData.foldl (fun d c => dinsert c.sha c.date d) []

/-- The `while current_commit in commit_parents` walk of
`process_commit_data`, returning the list of shas visited (in order), with
explicit fuel: each iteration does one membership test, appends, stops on an
empty parent list, else steps to the first parent. -/
def walkFrom (cp : Dict (List String)) : Nat → String → List String
  | 0, _ => []
  | fuel + 1, cur =>
      match dlookup cp cur with
      | none => []
      | some ps =>
          cur :: (match ps.head? with
                  | none => []
                  | some p => walkFrom cp fuel p)

/-- The membership accumulation of `process_commit_data`: for each
`(branch_name, tip_commit)` in `branch_tips`, walk the first-parent chain
and append the branch name to every visited sha's list. -/
def commitToBranchOf (tips : Dict String) (cp : Dict (List String))
    (fuel : Nat) : Dict (List String) :=
  tips.foldl
    (fun cb nt => (walkFrom cp fuel nt.2).foldl (fun cb sha => dappend sha nt.1 cb) cb)
    []

/-- `BranchVisualizer.process_commit_data`: returns
`(commit_to_branch, commit_dates, commit_parents)`.  The walks are run with
fuel `commits_data.length + 1`, which the termination theorem proves
sufficient on acyclic inputs. -/
def processCommitData (commitsData : List Commit) (branchData : List Branch) :
    Dict (List String) × Dict Nat × Dict (List String) :=
  let cp := commitParentsOf commitsData
  let cd := commitDatesOf commitsData
  let tips := branchTipsOf branchData
  (commitToBranchOf tips cp (commitsData.length + 1), cd, cp)

/-- One `go.Scatter(mode='lines', ...)` polyline emitted for a branch:
x-values (dates), y-values (the branch's lane, repeated), line color and the
branch name used as the trace label. -/
structure Trace where
  x : List Nat
  y : List Nat
  color : String
  name : String
deriving Repr, DecidableEq

/-- The gray used for detached commits (line 126). -/
def detachedColor : String := "#95A5A6"

/-- The sentinel pseudo-branch name (line 125). -/
def detachedName : String := "(detached)"

/-- The list comprehension of line 98:
`[(sha, commit_dates[sha]) for sha, branches in commit_to_branch.items() if branch_name in branches]`.
A missing date entry raises `KeyError`, hence the `Option`. -/
def memberPairs (cb : Dict (List String)) (dates : Dict Nat)
    (branchName : String) : Option (List (String × Nat)) :=
  (cb.filter (fun p => branchName ∈ p.2)).mapM
    (fun p => (dlookup dates p.1).map (fun d => (p.1, d)))

/-- Python's `sorted(..., key=lambda x: x[1])` on `(sha, date)` pairs: a
stable ascending sort by the date component (insertion sort, which is
extensionally Python's stable sort: an earlier element goes before any
equal-keyed later one). -/
def sortByDate (l : List (String × Nat)) : List (String × Nat) :=
  l.insertionSort (fun a b => a.2 ≤ b.2)

/-- The first loop of `prepare_visualization_data` (lines 95–115): one
polyline per branch that has at least one member commit. -/
def tracesLoop (cb : Dict (List String)) (dates : Dict Nat)
    (colors : Dict String) : List (String × Nat) → Option (List Trace)
  | [] => some []
  | (branchName, lane) :: rest =>
      (dlookup colors branchName).bind fun branchColor =>
      (memberPairs cb dates branchName).bind fun pairs =>
      (tracesLoop cb dates colors rest).bind fun rest2 =>
      if (sortByDate pairs).isEmpty then some rest2
      else some (⟨(sortByDate pairs).map Prod.snd,
                  (sortByDate pairs).map (fun _ => lane), branchColor,
                  branchName⟩ :: rest2)

/-- The hover text of lines 136–142 (the `datetime` is rendered through its
numeric model). -/
def dotText (c : Commit) (commitDate : Nat) (branches : List String) : String :=
  "Commit: " ++ c.sha.take 7 ++ "<br>" ++
  "Branch: " ++ String.intercalate ", " branches ++ "<br>" ++
  "Author: " ++ c.author ++ "<br>" ++
  "Date: " ++ toString commitDate ++ "<br>" ++
  "Message: " ++ c.message.take 50 ++ "..."

/-- The second loop of `prepare_visualization_data` (lines 118–142): emits
the four parallel dot lists, threading the `defaultdict` `commit_to_branch`
(whose reads insert `[]` for missing shas) as explicit state. -/
def dotsLoop (dates : Dict Nat) (colors : Dict String)
    (lanes : Dict Nat) :
    List Commit → Dict (List String) →
    Option (List Nat × List Nat × List String × List String × Dict (List String))
  | [], cb => some ([], [], [], [], cb)
  | c :: rest, cb =>
      (dlookup dates c.sha).bind fun commitDate =>
      (match (dgetD cb c.sha).1 with
       | [] => some ([detachedName], detachedColor)
       | b0 :: _ =>
           (dlookup colors b0).map (fun col => ((dgetD cb c.sha).1, col))).bind
        fun bc =>
      (dotsLoop dates colors lanes rest (dgetD cb c.sha).2).bind fun outs =>
      some (bc.1.map (fun _ => commitDate) ++ outs.1,
            bc.1.map (fun b => (dlookup lanes b).getD lanes.length) ++ outs.2.1,
            bc.1.map (fun _ => bc.2) ++ outs.2.2.1,
            bc.1.map (fun _ => dotText c commitDate bc.1) ++ outs.2.2.2.1,
            outs.2.2.2.2)

/-- The result of `prepare_visualization_data`: the returned 5-tuple plus
the final state of the mutated `commit_to_branch` argument. -/
structure PrepOut where
  dotsX : List Nat
  dotsY : List Nat
  dotsColor : List String
  dotsText : List String
  branchTraces : List Trace
  commitToBranchAfter : Dict (List String)
deriving Repr, DecidableEq

/-- `BranchVisualizer.prepare_visualization_data`.  `commit_parents` is a
parameter of the Python method but is never read by its body.  `none` models
an uncaught `KeyError`. -/
def prepareVisualizationData (commitsData : List Commit)
    (commitToBranch : Dict (List String)) (commitDates : Dict Nat)
    (commitParents : Dict (List String)) (branchToColor : Dict String)
    (branchLanes : Dict Nat) : Option PrepOut :=
  let _ := commitParents
  (tracesLoop commitToBranch commitDates branchToColor branchLanes).bind
    fun traces =>
  (dotsLoop commitDates branchToColor branchLanes commitsData
      commitToBranch).bind fun outs =>
  some ⟨outs.1, outs.2.1, outs.2.2.1, outs.2.2.2.1, traces, outs.2.2.2.2⟩

/-- Modelled from the spec: the glue `create_branch_visualization`, imported
by `app.py`, is not present under `src/` (only the `BranchVisualizer`
methods are).  Per §2 and §4.3 of the spec it assigns colors, resolves
history, allocates lanes 0, 1, 2, … to branch names in first-encounter
order, and calls the layout builder with the derived structures. -/
def allocateLanes (branchNames : List String) : Dict Nat :=
  branchNames.foldl
    (fun d n => if (dlookup d n).isSome then d else d ++ [(n, d.length)]) []

/-- Modelled from the spec: the end-to-end pipeline of
`create_branch_visualization` (missing from `src/`), §2's data flow:
raw commits + raw branches → History Resolver → Layout Builder, with the
Color Assigner and Lane Allocator outputs. -/
def createBranchVisualization (commitsData : List Commit)
    (branchData : List Branch) : Option PrepOut :=
  let colors := assignBranchColors branchData
  let (cb, dates, cp) := processCommitData commitsData branchData
  let lanes := allocateLanes (branchData.map Branch.name)
  prepareVisualizationData commitsData cb dates cp colors lanes

/-! ## Dictionary lemmas -/

theorem dlookup_dinsert {β : Type} (k : String) (v : β) (d : Dict β)
    (n : String) :
    dlookup (dinsert k v d) n = if k = n then some v else dlookup d n := by
  induction d with
  | nil => simp [dinsert, dlookup]
  | cons hd tl ih =>
      obtain ⟨k', v'⟩ := hd
      by_cases h : k' = k
      · subst h
        by_cases h2 : k' = n <;> simp [dinsert, dlookup, h2]
      · simp only [dinsert, if_neg h, dlookup, ih]
        by_cases h2 : k' = n
        · subst h2
          have h' : ¬ (k = k') := fun e => h e.symm
          simp [h']
        · simp [h2]

theorem dlookup_append {β : Type} (d1 d2 : Dict β) (k : String) :
    dlookup (d1 ++ d2) k =
      match dlookup d1 k with
      | some v => some v
      | none => dlookup d2 k := by
  induction d1 with
  | nil => simp [dlookup]
  | cons hd tl ih =>
      obtain ⟨k', v'⟩ := hd
      by_cases h : k' = k <;> simp [dlookup, h, ih]

theorem mem_dkeys_iff_isSome {β : Type} (d : Dict β) (k : String) :
    k ∈ dkeys d ↔ (dlookup d k).isSome := by
  induction d with
  | nil => simp [dkeys, dlookup]
  | cons hd tl ih =>
      obtain ⟨k', v'⟩ := hd
      by_cases h : k' = k
      · subst h; simp [dkeys, dlookup]
      · have h' : ¬ (k = k') := fun e => h e.symm
        simp only [dkeys, List.map_cons, List.mem_cons, dlookup, if_neg h]
        simp only [dkeys] at ih
        simp [h', ih]

theorem dlookup_eq_none_iff {β : Type} (d : Dict β) (k : String) :
    dlookup d k = none ↔ k ∉ dkeys d := by
  rw [mem_dkeys_iff_isSome, Option.isSome_iff_exists]
  cases dlookup d k <;> simp

theorem dkeys_dinsert_subset {β : Type} (k : String) (v : β) (d : Dict β) :
    ∀ n, n ∈ dkeys (dinsert k v d) → n = k ∨ n ∈ dkeys d := by
  induction d with
  | nil => simp [dinsert, dkeys]
  | cons hd tl ih =>
      obtain ⟨k', v'⟩ := hd
      intro n
      by_cases h : k' = k
      · subst h
        simp only [dinsert, eq_self_iff_true, if_true, dkeys, List.map_cons,
          List.mem_cons]
        tauto
      · simp only [dinsert, if_neg h, dkeys, List.map_cons, List.mem_cons]
        rintro (rfl | hn)
        · simp [dkeys]
        · rcases ih n hn with h1 | h1
          · exact Or.inl h1
          · exact Or.inr (Or.inr h1)

theorem mem_dkeys_dinsert {β : Type} (k : String) (v : β) (d : Dict β)
    (n : String) : n ∈ dkeys (dinsert k v d) ↔ n = k ∨ n ∈ dkeys d := by
  constructor
  · exact dkeys_dinsert_subset k v d n
  · intro h
    rw [mem_dkeys_iff_isSome, dlookup_dinsert]
    rcases h with rfl | h
    · simp
    · by_cases hk : k = n
      · simp [hk]
      · simpa [hk, ← mem_dkeys_iff_isSome] using h

theorem dkeys_nodup_dinsert {β : Type} (k : String) (v : β) (d : Dict β)
    (h : (dkeys d).Nodup) : (dkeys (dinsert k v d)).Nodup := by
  induction d with
  | nil => simp [dinsert, dkeys]
  | cons hd tl ih =>
      obtain ⟨k', v'⟩ := hd
      simp only [dkeys, List.map_cons, List.nodup_cons] at h
      by_cases hk : k' = k
      · subst hk
        simpa [dinsert, dkeys, List.nodup_cons] using h
      · simp only [dinsert, if_neg hk, dkeys, List.map_cons, List.nodup_cons]
        refine ⟨fun hmem => ?_, ih h.2⟩
        rcases dkeys_dinsert_subset k v tl k' hmem with rfl | hmem'
        · exact hk rfl
        · exact h.1 hmem'

theorem dlookup_mem {β : Type} {d : Dict β} {k : String} {v : β}
    (h : dlookup d k = some v) : (k, v) ∈ d := by
  induction d with
  | nil => simp [dlookup] at h
  | cons hd tl ih =>
      obtain ⟨k', v'⟩ := hd
      by_cases hk : k' = k
      · subst hk
        simp only [dlookup, eq_self_iff_true, if_true, Option.some.injEq] at h
        rw [← h]
        exact List.mem_cons_self _ _
      · simp only [dlookup, if_neg hk] at h
        exact List.mem_cons_of_mem _ (ih h)

theorem mem_dlookup {β : Type} {d : Dict β} {k : String} {v : β}
    (hnd : (dkeys d).Nodup) (h : (k, v) ∈ d) : dlookup d k = some v := by
  induction d with
  | nil => simp at h
  | cons hd tl ih =>
      obtain ⟨k', v'⟩ := hd
      simp only [dkeys, List.map_cons, List.nodup_cons] at hnd
      rcases List.mem_cons.mp h with heq | hmem
      · cases heq
        simp [dlookup]
      · have hk : k' ≠ k := by
          rintro rfl
          exact hnd.1 (List.mem_map.mpr ⟨(k', v), hmem, rfl⟩)
        simp only [dlookup, if_neg hk]
        exact ih hnd.2 hmem

theorem dinsert_length_le {β : Type} (k : String) (v : β) (d : Dict β) :
    (dinsert k v d).length ≤ d.length + 1 := by
  induction d with
  | nil => simp [dinsert]
  | cons hd tl ih =>
      obtain ⟨k', v'⟩ := hd
      by_cases h : k' = k
      · simp [dinsert, h]
      · simp only [dinsert, if_neg h, List.length_cons]
        omega



theorem mem_dkeys_foldl_dinsert {α β : Type} (key : α → String) (val : α → β)
    (l : List α) (d0 : Dict β) (k : String) :
    k ∈ dkeys (l.foldl (fun d x => dinsert (key x) (val x) d) d0) ↔
      k ∈ dkeys d0 ∨ k ∈ l.map key := by
  induction l generalizing d0 with
  | nil => simp
  | cons x xs ih =>
      simp only [List.foldl_cons, List.map_cons, List.mem_cons]
      rw [ih, mem_dkeys_dinsert]
      tauto

theorem nodup_dkeys_foldl_dinsert {α β : Type} (key : α → String)
    (val : α → β) (l : List α) (d0 : Dict β) (h : (dkeys d0).Nodup) :
    (dkeys (l.foldl (fun d x => dinsert (key x) (val x) d) d0)).Nodup := by
  induction l generalizing d0 with
  | nil => exact h
  | cons x xs ih => exact ih _ (dkeys_nodup_dinsert _ _ _ h)

theorem length_foldl_dinsert_le {α β : Type} (key : α → String)
    (val : α → β) (l : List α) (d0 : Dict β) :
    (l.foldl (fun d x => dinsert (key x) (val x) d) d0).length ≤
      d0.length + l.length := by
  induction l generalizing d0 with
  | nil => simp
  | cons x xs ih =>
      simp only [List.foldl_cons, List.length_cons]
      calc (xs.foldl (fun d y => dinsert (key y) (val y) d)
              (dinsert (key x) (val x) d0)).length ≤
            (dinsert (key x) (val x) d0).length + xs.length := ih _
        _ ≤ d0.length + (xs.length + 1) := by
            have := dinsert_length_le (key x) (val x) d0
            omega

/-! ### Properties of the commit/date/tip indices -/

theorem mem_dkeys_commitParentsOf (cs : List Commit) (k : String) :
    k ∈ dkeys (commitParentsOf cs) ↔ k ∈ cs.map Commit.sha := by
  simpa [commitParentsOf, dkeys] using
    mem_dkeys_foldl_dinsert Commit.sha Commit.parents cs [] k

theorem mem_dkeys_commitDatesOf (cs : List Commit) (k : String) :
    k ∈ dkeys (commitDatesOf cs) ↔ k ∈ cs.map Commit.sha := by
  simpa [commitDatesOf, dkeys] using
    mem_dkeys_foldl_dinsert Commit.sha Commit.date cs [] k

theorem mem_dkeys_branchTipsOf (bs : List Branch) (k : String) :
    k ∈ dkeys (branchTipsOf bs) ↔ k ∈ bs.map Branch.name := by
  simpa [branchTipsOf, dkeys] using
    mem_dkeys_foldl_dinsert Branch.name Branch.commit bs [] k

theorem nodup_dkeys_commitParentsOf (cs : List Commit) :
    (dkeys (commitParentsOf cs)).Nodup :=
  nodup_dkeys_foldl_dinsert Commit.sha Commit.parents cs [] (by simp [dkeys])

theorem nodup_dkeys_branchTipsOf (bs : List Branch) :
    (dkeys (branchTipsOf bs)).Nodup :=
  nodup_dkeys_foldl_dinsert Branch.name Branch.commit bs [] (by simp [dkeys])

theorem length_commitParentsOf_le (cs : List Commit) :
    (commitParentsOf cs).length ≤ cs.length := by
  simpa using length_foldl_dinsert_le Commit.sha Commit.parents cs []

/-! ### Properties of the first-parent walk -/

theorem walkFrom_succ_none (cp : Dict (List String)) (fuel : Nat)
    (cur : String) (h : dlookup cp cur = none) :
    walkFrom cp (fuel + 1) cur = [] := by
  unfold walkFrom; rw [h]

theorem walkFrom_succ_root (cp : Dict (List String)) (fuel : Nat)
    (cur : String) (ps : List String) (h : dlookup cp cur = some ps)
    (hp : ps.head? = none) : walkFrom cp (fuel + 1) cur = [cur] := by
  unfold walkFrom; rw [h]; simp [hp]

theorem walkFrom_succ_step (cp : Dict (List String)) (fuel : Nat)
    (cur : String) (ps : List String) (p : String)
    (h : dlookup cp cur = some ps) (hp : ps.head? = some p) :
    walkFrom cp (fuel + 1) cur = cur :: walkFrom cp fuel p := by
  conv_lhs => unfold walkFrom
  rw [h]; simp [hp]

theorem walkFrom_subset_keys (cp : Dict (List String)) (fuel : Nat)
    (cur : String) :
    ∀ s ∈ walkFrom cp fuel cur, (dlookup cp s).isSome := by
  induction fuel generalizing cur with
  | zero => simp [walkFrom]
  | succ f ih =>
      intro s hs
      cases hlk : dlookup cp cur with
      | none => rw [walkFrom_succ_none cp f cur hlk] at hs; simp at hs
      | some ps =>
          cases hhd : ps.head? with
          | none =>
              rw [walkFrom_succ_root cp f cur ps hlk hhd] at hs
              simp only [List.mem_singleton] at hs
              subst hs; simp [hlk]
          | some p =>
              rw [walkFrom_succ_step cp f cur ps p hlk hhd] at hs
              rcases List.mem_cons.mp hs with rfl | hs'
              · simp [hlk]
              · exact ih p s hs'

theorem walkFrom_length_le (cp : Dict (List String)) (fuel : Nat)
    (cur : String) : (walkFrom cp fuel cur).length ≤ fuel := by
  induction fuel generalizing cur with
  | zero => simp [walkFrom]
  | succ f ih =>
      cases hlk : dlookup cp cur with
      | none => rw [walkFrom_succ_none cp f cur hlk]; simp
      | some ps =>
          cases hhd : ps.head? with
          | none => rw [walkFrom_succ_root cp f cur ps hlk hhd]; simp
          | some p =>
              rw [walkFrom_succ_step cp f cur ps p hlk hhd]
              simpa using ih p

theorem walkFrom_stable_succ (cp : Dict (List String)) (fuel : Nat)
    (cur : String) (h : (walkFrom cp fuel cur).length < fuel) :
    walkFrom cp (fuel + 1) cur = walkFrom cp fuel cur := by
  induction fuel generalizing cur with
  | zero => simp at h
  | succ f ih =>
      cases hlk : dlookup cp cur with
      | none => rw [walkFrom_succ_none cp (f + 1) cur hlk,
                    walkFrom_succ_none cp f cur hlk]
      | some ps =>
          cases hhd : ps.head? with
          | none => rw [walkFrom_succ_root cp (f + 1) cur ps hlk hhd,
                        walkFrom_succ_root cp f cur ps hlk hhd]
          | some p =>
              rw [walkFrom_succ_step cp f cur ps p hlk hhd] at h
              simp only [List.length_cons] at h
              rw [walkFrom_succ_step cp (f + 1) cur ps p hlk hhd,
                  walkFrom_succ_step cp f cur ps p hlk hhd,
                  ih p (by omega)]

theorem walkFrom_stable_ge (cp : Dict (List String)) {fuel fuel' : Nat}
    (cur : String) (h : (walkFrom cp fuel cur).length < fuel)
    (hge : fuel ≤ fuel') : walkFrom cp fuel' cur = walkFrom cp fuel cur := by
  induction fuel', hge using Nat.le_induction with
  | base => rfl
  | succ n hn ih =>
      rw [← ih]
      exact walkFrom_stable_succ cp n cur (by rw [ih]; omega)

/-- Acyclicity of the sha → first-parent graph over the parent index: a rank
function strictly decreasing along every first-parent edge of the index. -/
def FirstParentAcyclic (cp : Dict (List String)) (rank : String → Nat) : Prop :=
  ∀ pr ∈ cp, ∀ q, pr.2.head? = some q → rank q < rank pr.1

theorem walkFrom_rank_le {cp : Dict (List String)} {rank : String → Nat}
    (hacyc : FirstParentAcyclic cp rank) (fuel : Nat) (cur : String) :
    ∀ s ∈ walkFrom cp fuel cur, rank s ≤ rank cur := by
  induction fuel generalizing cur with
  | zero => simp [walkFrom]
  | succ f ih =>
      intro s hs
      cases hlk : dlookup cp cur with
      | none => rw [walkFrom_succ_none cp f cur hlk] at hs; simp at hs
      | some ps =>
          cases hhd : ps.head? with
          | none =>
              rw [walkFrom_succ_root cp f cur ps hlk hhd] at hs
              simp only [List.mem_singleton] at hs
              subst hs; exact le_refl _
          | some p =>
              rw [walkFrom_succ_step cp f cur ps p hlk hhd] at hs
              rcases List.mem_cons.mp hs with rfl | hs'
              · exact le_refl _
              · have hlt : rank p < rank cur :=
                  hacyc (cur, ps) (dlookup_mem hlk) p hhd
                exact le_trans (ih p s hs') (le_of_lt hlt)

theorem walkFrom_pairwise {cp : Dict (List String)} {rank : String → Nat}
    (hacyc : FirstParentAcyclic cp rank) (fuel : Nat) (cur : String) :
    (walkFrom cp fuel cur).Pairwise (fun a b => rank b < rank a) := by
  induction fuel generalizing cur with
  | zero => simp [walkFrom]
  | succ f ih =>
      cases hlk : dlookup cp cur with
      | none => rw [walkFrom_succ_none cp f cur hlk]; simp
      | some ps =>
          cases hhd : ps.head? with
          | none => rw [walkFrom_succ_root cp f cur ps hlk hhd]; simp
          | some p =>
              rw [walkFrom_succ_step cp f cur ps p hlk hhd]
              refine List.Pairwise.cons (fun b hb => ?_) (ih p)
              have hlt : rank p < rank cur :=
                hacyc (cur, ps) (dlookup_mem hlk) p hhd
              exact lt_of_le_of_lt (walkFrom_rank_le hacyc f p b hb) hlt

theorem walkFrom_nodup {cp : Dict (List String)} {rank : String → Nat}
    (hacyc : FirstParentAcyclic cp rank) (fuel : Nat) (cur : String) :
    (walkFrom cp fuel cur).Nodup :=
  (walkFrom_pairwise hacyc fuel cur).imp
    (fun {a b} h => by rintro rfl; omega)

theorem walkFrom_length_le_keys {cp : Dict (List String)}
    {rank : String → Nat} (hacyc : FirstParentAcyclic cp rank) (fuel : Nat)
    (cur : String) : (walkFrom cp fuel cur).length ≤ cp.length := by
  have hsub : walkFrom cp fuel cur ⊆ dkeys cp := by
    intro s hs
    exact (mem_dkeys_iff_isSome cp s).mpr (walkFrom_subset_keys cp fuel cur s hs)
  have := ((walkFrom_nodup hacyc fuel cur).subperm hsub).length_le
  simpa [dkeys] using this

/-- The three ways a branch walk stops: the start sha is absent from the
parent index; the last visited commit is a root (empty parent list); or the
first parent of the last visited commit is absent from the index. -/
def WalkStops (cp : Dict (List String)) (start : String)
    (w : List String) : Prop :=
  (w = [] ∧ dlookup cp start = none) ∨
  (∃ last ps, w.getLast? = some last ∧ dlookup cp last = some ps ∧
    (ps.head? = none ∨ ∃ q, ps.head? = some q ∧ dlookup cp q = none))

theorem getLast?_cons_of_ne_nil {α : Type} (a : α) {l : List α}
    (h : l ≠ []) : (a :: l).getLast? = l.getLast? := by
  cases l with
  | nil => exact absurd rfl h
  | cons b t => exact List.getLast?_cons_cons

theorem walkFrom_stops (cp : Dict (List String)) (fuel : Nat) (cur : String)
    (h : (walkFrom cp fuel cur).length < fuel) :
    WalkStops cp cur (walkFrom cp fuel cur) := by
  induction fuel generalizing cur with
  | zero => simp at h
  | succ f ih =>
      cases hlk : dlookup cp cur with
      | none =>
          rw [walkFrom_succ_none cp f cur hlk]
          exact Or.inl ⟨rfl, hlk⟩
      | some ps =>
          cases hhd : ps.head? with
          | none =>
              rw [walkFrom_succ_root cp f cur ps hlk hhd]
              exact Or.inr ⟨cur, ps, rfl, hlk, Or.inl hhd⟩
          | some p =>
              rw [walkFrom_succ_step cp f cur ps p hlk hhd] at h ⊢
              simp only [List.length_cons] at h
              rcases ih p (by omega) with ⟨hnil, hpl⟩ | ⟨last, ps', hgl, hlkl, hrest⟩
              · rw [hnil]
                exact Or.inr ⟨cur, ps, rfl, hlk, Or.inr ⟨p, hhd, hpl⟩⟩
              · have hne : walkFrom cp f p ≠ [] := by
                  intro he; rw [he] at hgl; simp at hgl
                refine Or.inr ⟨last, ps', ?_, hlkl, hrest⟩
                rw [getLast?_cons_of_ne_nil cur hne]
                exact hgl

/-! ### Membership accumulation -/

theorem mem_dkeys_dappend (k x n : String) :
    ∀ d : Dict (List String),
      n ∈ dkeys (dappend k x d) ↔ n = k ∨ n ∈ dkeys d := by
  intro d
  induction d with
  | nil => simp [dappend, dkeys]
  | cons hd tl ih =>
      obtain ⟨k', l⟩ := hd
      by_cases h : k' = k
      · subst h
        simp only [dappend, eq_self_iff_true, if_true, dkeys, List.map_cons,
          List.mem_cons]
        tauto
      · simp only [dappend, if_neg h, dkeys, List.map_cons, List.mem_cons]
        rw [show (List.map Prod.fst (dappend k x tl)) =
              dkeys (dappend k x tl) from rfl, ih]
        tauto

theorem foldl_dappend_keys {P : String → Prop} (name : String) :
    ∀ (w : List String) (acc : Dict (List String)),
      (∀ s ∈ w, P s) → (∀ s ∈ dkeys acc, P s) →
      ∀ s ∈ dkeys (w.foldl (fun cb sha => dappend sha name cb) acc), P s := by
  intro w
  induction w with
  | nil => exact fun acc _ hacc => hacc
  | cons x xs ih =>
      intro acc hw hacc
      simp only [List.foldl_cons]
      refine ih _ (fun s hs => hw s (List.mem_cons_of_mem _ hs)) ?_
      intro s hs
      rcases (mem_dkeys_dappend x name s acc).mp hs with rfl | hs'
      · exact hw s (List.mem_cons_self _ _)
      · exact hacc s hs'

theorem foldl_tips_keys {P : String → Prop}
    (cp : Dict (List String)) (fuel : Nat) :
    ∀ (tips : Dict String) (acc : Dict (List String)),
      (∀ nt ∈ tips, ∀ s ∈ walkFrom cp fuel nt.2, P s) →
      (∀ s ∈ dkeys acc, P s) →
      ∀ s ∈ dkeys (tips.foldl
        (fun cb nt =>
          (walkFrom cp fuel nt.2).foldl (fun cb sha => dappend sha nt.1 cb) cb)
        acc), P s := by
  intro tips
  induction tips with
  | nil => exact fun acc _ hacc => hacc
  | cons nt rest ih =>
      intro acc hP hacc
      simp only [List.foldl_cons]
      refine ih _ (fun nt' h' => hP nt' (List.mem_cons_of_mem _ h')) ?_
      exact foldl_dappend_keys nt.1 _ acc (hP nt (List.mem_cons_self _ _)) hacc

theorem commitToBranchOf_keys {P : String → Prop} (tips : Dict String)
    (cp : Dict (List String)) (fuel : Nat)
    (hP : ∀ nt ∈ tips, ∀ s ∈ walkFrom cp fuel nt.2, P s) :
    ∀ s ∈ dkeys (commitToBranchOf tips cp fuel), P s :=
  foldl_tips_keys cp fuel tips [] hP (by simp [dkeys])

theorem dappend_vals {P : String → Prop} (k x : String) (hx : P x) :
    ∀ d : Dict (List String), (∀ p ∈ d, ∀ y ∈ p.2, P y) →
      ∀ p ∈ dappend k x d, ∀ y ∈ p.2, P y := by
  intro d
  induction d with
  | nil =>
      intro _ p hp y hy
      simp only [dappend, List.mem_singleton] at hp
      subst hp
      simp only [List.mem_singleton] at hy
      subst hy
      exact hx
  | cons hd tl ih =>
      obtain ⟨k', l⟩ := hd
      intro hall p hp y hy
      by_cases h : k' = k
      · subst h
        simp only [dappend, eq_self_iff_true, if_true, List.mem_cons] at hp
        rcases hp with rfl | hp'
        · simp only [List.mem_append, List.mem_singleton] at hy
          rcases hy with hy' | rfl
          · exact hall (k', l) (List.mem_cons_self _ _) y hy'
          · exact hx
        · exact hall p (List.mem_cons_of_mem _ hp') y hy
      · simp only [dappend, if_neg h, List.mem_cons] at hp
        rcases hp with rfl | hp'
        · exact hall (k', l) (List.mem_cons_self _ _) y hy
        · exact ih (fun q hq => hall q (List.mem_cons_of_mem _ hq)) p hp' y hy

theorem foldl_dappend_vals {P : String → Prop} (name : String) :
    ∀ (w : List String) (acc : Dict (List String)),
      (∀ s ∈ w, P name) → (∀ p ∈ acc, ∀ y ∈ p.2, P y) →
      ∀ p ∈ (w.foldl (fun cb sha => dappend sha name cb) acc),
        ∀ y ∈ p.2, P y := by
  intro w
  induction w with
  | nil => exact fun acc _ hacc => hacc
  | cons x xs ih =>
      intro acc hw hacc
      simp only [List.foldl_cons]
      refine ih _ (fun s hs => hw s (List.mem_cons_of_mem _ hs)) ?_
      exact dappend_vals x name (hw x (List.mem_cons_self _ _)) acc hacc

theorem foldl_tips_vals {P : String → Prop}
    (cp : Dict (List String)) (fuel : Nat) :
    ∀ (tips : Dict String) (acc : Dict (List String)),
      (∀ nt ∈ tips, ∀ s ∈ walkFrom cp fuel nt.2, P nt.1) →
      (∀ p ∈ acc, ∀ y ∈ p.2, P y) →
      ∀ p ∈ (tips.foldl
        (fun cb nt =>
          (walkFrom cp fuel nt.2).foldl (fun cb sha => dappend sha nt.1 cb) cb)
        acc), ∀ y ∈ p.2, P y := by
  intro tips
  induction tips with
  | nil => exact fun acc _ hacc => hacc
  | cons nt rest ih =>
      intro acc hP hacc
      simp only [List.foldl_cons]
      refine ih _ (fun nt' h' => hP nt' (List.mem_cons_of_mem _ h')) ?_
      exact foldl_dappend_vals nt.1 _ acc (hP nt (List.mem_cons_self _ _)) hacc

theorem commitToBranchOf_vals {P : String → Prop} (tips : Dict String)
    (cp : Dict (List String)) (fuel : Nat)
    (hP : ∀ nt ∈ tips, ∀ s ∈ walkFrom cp fuel nt.2, P nt.1) :
    ∀ p ∈ commitToBranchOf tips cp fuel, ∀ y ∈ p.2, P y :=
  foldl_tips_vals cp fuel tips [] hP (by simp)

/-! ### Decomposing `prepare_visualization_data` -/

theorem prepare_eq_parts (cs : List Commit) (cb : Dict (List String))
    (dates : Dict Nat) (cp : Dict (List String)) (colors : Dict String)
    (lanes : Dict Nat) (out : PrepOut)
    (h : prepareVisualizationData cs cb dates cp colors lanes = some out) :
    tracesLoop cb dates colors lanes = some out.branchTraces ∧
    dotsLoop dates colors lanes cs cb =
      some (out.dotsX, out.dotsY, out.dotsColor, out.dotsText,
            out.commitToBranchAfter) := by
  unfold prepareVisualizationData at h
  cases htr : tracesLoop cb dates colors lanes with
  | none => rw [htr] at h; simp at h
  | some trs =>
      rw [htr] at h
      cases hdl : dotsLoop dates colors lanes cs cb with
      | none => rw [hdl] at h; simp at h
      | some tup =>
          obtain ⟨dx, dy, dc, dt, cb2⟩ := tup
          rw [hdl] at h
          have h' : (⟨dx, dy, dc, dt, trs, cb2⟩ : PrepOut) = out := by
            simpa using h
          subst h'
          exact ⟨rfl, rfl⟩

theorem mapM_pairs_spec (dates : Dict Nat) :
    ∀ (l : List (String × List String)) (pairs : List (String × Nat)),
      l.mapM (fun p => (dlookup dates p.1).map (fun d => (p.1, d))) =
          some pairs →
      pairs = l.map (fun p => (p.1, (dlookup dates p.1).getD 0)) ∧
        ∀ p ∈ l, (dlookup dates p.1).isSome := by
  intro l
  induction l with
  | nil =>
      intro pairs h
      rw [List.mapM_nil] at h
      cases h
      exact ⟨rfl, by simp⟩
  | cons a t ih =>
      intro pairs h
      rw [List.mapM_cons] at h
      rcases Option.bind_eq_some.mp h with ⟨b, hb, h2⟩
      rcases Option.bind_eq_some.mp h2 with ⟨bs, hbs, h3⟩
      have h3' : b :: bs = pairs := by
        simpa using h3
      subst h3'
      obtain ⟨hmap, hsome⟩ := ih bs hbs
      rcases Option.map_eq_some'.mp hb with ⟨d, hd, rfl⟩
      refine ⟨by simp [hmap, hd], ?_⟩
      intro p hp
      rcases List.mem_cons.mp hp with rfl | hp'
      · simp [hd]
      · exact hsome p hp'

theorem memberPairs_spec {cb : Dict (List String)} {dates : Dict Nat}
    {bn : String} {pairs : List (String × Nat)}
    (h : memberPairs cb dates bn = some pairs) :
    pairs = (cb.filter (fun p => bn ∈ p.2)).map
        (fun p => (p.1, (dlookup dates p.1).getD 0)) ∧
      ∀ p ∈ cb.filter (fun p => bn ∈ p.2), (dlookup dates p.1).isSome :=
  mapM_pairs_spec dates _ pairs h

theorem memberPairs_nonempty {cb : Dict (List String)} {dates : Dict Nat}
    {bn : String} {pairs : List (String × Nat)}
    (h : memberPairs cb dates bn = some pairs) (hne : pairs ≠ []) :
    ∃ p ∈ cb, bn ∈ p.2 := by
  obtain ⟨hmap, -⟩ := memberPairs_spec h
  cases hfil : cb.filter (fun p => bn ∈ p.2) with
  | nil => rw [hfil] at hmap; simp at hmap; exact absurd hmap hne
  | cons q qs =>
      have hq : q ∈ cb.filter (fun p => bn ∈ p.2) := by
        rw [hfil]; exact List.mem_cons_self _ _
      rcases List.mem_filter.mp hq with ⟨hq1, hq2⟩
      exact ⟨q, hq1, by simpa using hq2⟩

theorem tracesLoop_names (cb : Dict (List String)) (dates : Dict Nat)
    (colors : Dict String) :
    ∀ (lanes : List (String × Nat)) (trs : List Trace),
      tracesLoop cb dates colors lanes = some trs →
      ∀ tr ∈ trs, ∃ p ∈ cb, tr.name ∈ p.2 := by
  intro lanes
  induction lanes with
  | nil =>
      intro trs h
      simp only [tracesLoop] at h
      cases h
      simp
  | cons bl rest ih =>
      obtain ⟨bn, lane⟩ := bl
      intro trs h
      simp only [tracesLoop] at h
      rcases Option.bind_eq_some.mp h with ⟨bc, hbc, h2⟩
      rcases Option.bind_eq_some.mp h2 with ⟨pairs, hpairs, h3⟩
      rcases Option.bind_eq_some.mp h3 with ⟨rest', hrest, h4⟩
      intro tr htr
      by_cases hemp : (sortByDate pairs).isEmpty
      · rw [if_pos hemp] at h4
        have : rest' = trs := by simpa using h4
        subst this
        exact ih rest' hrest tr htr
      · rw [if_neg hemp] at h4
        have h4' : (⟨(sortByDate pairs).map Prod.snd,
            (sortByDate pairs).map (fun _ => lane), bc, bn⟩ : Trace) :: rest' =
            trs := by simpa using h4
        subst h4'
        rcases List.mem_cons.mp htr with rfl | htr'
        · have hpne : pairs ≠ [] := by
            intro he
            subst he
            simp [sortByDate, List.isEmpty_iff] at hemp
          rcases memberPairs_nonempty hpairs hpne with ⟨p, hp1, hp2⟩
          exact ⟨p, hp1, hp2⟩
        · exact ih rest' hrest tr htr'

/-! ## Witness fixtures: small concrete inputs -/

/-- Root commit fixture. -/
def wCommitA : Commit := ⟨"a", "init", "alice", 0, []⟩

/-- Child commit fixture (first parent `"a"`). -/
def wCommitB : Commit := ⟨"b", "second", "alice", 1, ["a"]⟩

/-- Branch fixture: `main` at tip `"b"`. -/
def wMain : Branch := ⟨"main", "b", false⟩

/-- Branch fixture: `feature/x` at tip `"b"` (shares `main`'s tip). -/
def wFeature : Branch := ⟨"feature/x", "b", false⟩

/-- Branch fixture whose tip sha is absent from the commit list. -/
def wGhost : Branch := ⟨"ghost", "zzz", false⟩

/-- Rank function witnessing acyclicity of the two-commit fixture. -/
def wRank : String → Nat := fun s => if s = "b" then 1 else 0

/-! ## Claim theorems -/

/-- C5: every sha that appears as a key of the membership mapping returned
by `process_commit_data` was present as a sha in the input commit list, and
every such sha has an entry in the returned date index. -/
theorem processCommitData_membership_keys (commitsData : List Commit)
    (branchData : List Branch) (sha : String) (bl : List String)
    (hmem : (sha, bl) ∈ (processCommitData commitsData branchData).1) :
    sha ∈ commitsData.map Commit.sha ∧
      (dlookup (processCommitData commitsData branchData).2.1 sha).isSome := by
  have hfst : (processCommitData commitsData branchData).1 =
      commitToBranchOf (branchTipsOf branchData) (commitParentsOf commitsData)
        (commitsData.length + 1) := rfl
  have hsnd : (processCommitData commitsData branchData).2.1 =
      commitDatesOf commitsData := rfl
  rw [hfst] at hmem
  have hkey : sha ∈ dkeys (commitToBranchOf (branchTipsOf branchData)
      (commitParentsOf commitsData) (commitsData.length + 1)) :=
    List.mem_map.mpr ⟨(sha, bl), hmem, rfl⟩
  have h1 : (dlookup (commitParentsOf commitsData) sha).isSome :=
    commitToBranchOf_keys _ _ _
      (fun _ _ s hs => walkFrom_subset_keys _ _ _ s hs) sha hkey
  have h2 : sha ∈ commitsData.map Commit.sha :=
    (mem_dkeys_commitParentsOf _ _).mp ((mem_dkeys_iff_isSome _ _).mpr h1)
  refine ⟨h2, ?_⟩
  rw [hsnd, ← mem_dkeys_iff_isSome, mem_dkeys_commitDatesOf]
  exact h2

/-- Witness for C5 at the two-commit fixture: `("b", ["main"])` is a
membership entry and `"b"` is an input sha with a date entry. -/
theorem processCommitData_membership_keys_witness :
    (("b", ["main"]) ∈ (processCommitData [wCommitA, wCommitB] [wMain]).1) ∧
    ("b" ∈ [wCommitA, wCommitB].map Commit.sha ∧
      (dlookup (processCommitData [wCommitA, wCommitB] [wMain]).2.1
        "b").isSome) :=
  ⟨by decide,
   processCommitData_membership_keys [wCommitA, wCommitB] [wMain] "b" ["main"]
     (by decide)⟩

/-- C4: on an acyclic first-parent graph (witnessed by a strictly decreasing
rank), every branch walk of `process_commit_data` terminates: the walk at
the fuel used by the embedding visits each sha at most once (`Nodup`), is
independent of any larger fuel (the loop reached a stop condition rather
than fuel exhaustion), and stops at an absent sha, a root, or an absent
first parent. -/
theorem processCommitData_terminates_on_acyclic (commitsData : List Commit)
    (branchData : List Branch) (rank : String → Nat)
    (hacyc : FirstParentAcyclic (commitParentsOf commitsData) rank)
    (name tip : String) (htip : (name, tip) ∈ branchTipsOf branchData) :
    (walkFrom (commitParentsOf commitsData) (commitsData.length + 1)
        tip).Nodup ∧
    (∀ fuel, commitsData.length + 1 ≤ fuel →
      walkFrom (commitParentsOf commitsData) fuel tip =
        walkFrom (commitParentsOf commitsData) (commitsData.length + 1) tip) ∧
    WalkStops (commitParentsOf commitsData) tip
      (walkFrom (commitParentsOf commitsData) (commitsData.length + 1) tip) := by
  have _ := htip
  have hlen : (walkFrom (commitParentsOf commitsData)
      (commitsData.length + 1) tip).length < commitsData.length + 1 :=
    lt_of_le_of_lt
      (le_trans (walkFrom_length_le_keys hacyc _ tip)
        (length_commitParentsOf_le commitsData))
      (Nat.lt_succ_self _)
  exact ⟨walkFrom_nodup hacyc _ tip,
         fun fuel hge => walkFrom_stable_ge _ tip hlen hge,
         walkFrom_stops _ _ tip hlen⟩

/-- Acyclicity of the two-commit fixture under `wRank`. -/
theorem wRank_acyclic :
    FirstParentAcyclic (commitParentsOf [wCommitA, wCommitB]) wRank := by
  intro pr hpr q hq
  have hcp : commitParentsOf [wCommitA, wCommitB] =
      [("a", ([] : List String)), ("b", ["a"])] := by decide
  rw [hcp] at hpr
  rcases List.mem_cons.mp hpr with rfl | hpr2
  · simp at hq
  · rcases List.mem_cons.mp hpr2 with rfl | hpr3
    · simp only [List.head?_cons, Option.some.injEq] at hq
      subst hq
      decide
    · simp at hpr3

/-- Witness for C4: the fixture is acyclic, `main` tips at `"b"`, and the
walk from `"b"` is duplicate-free, fuel-independent and properly stopped. -/
theorem processCommitData_terminates_witness :
    FirstParentAcyclic (commitParentsOf [wCommitA, wCommitB]) wRank ∧
    (("main", "b") ∈ branchTipsOf [wMain]) ∧
    ((walkFrom (commitParentsOf [wCommitA, wCommitB])
        ([wCommitA, wCommitB].length + 1) "b").Nodup ∧
     (∀ fuel, [wCommitA, wCommitB].length + 1 ≤ fuel →
       walkFrom (commitParentsOf [wCommitA, wCommitB]) fuel "b" =
         walkFrom (commitParentsOf [wCommitA, wCommitB])
           ([wCommitA, wCommitB].length + 1) "b") ∧
     WalkStops (commitParentsOf [wCommitA, wCommitB]) "b"
       (walkFrom (commitParentsOf [wCommitA, wCommitB])
         ([wCommitA, wCommitB].length + 1) "b")) :=
  ⟨wRank_acyclic, by decide,
   processCommitData_terminates_on_acyclic [wCommitA, wCommitB] [wMain] wRank
     wRank_acyclic "main" "b" (by decide)⟩

/-- C3: a branch whose tip sha is absent from the supplied commit list is
attributed zero commits — its name appears in no membership list of
`process_commit_data`'s result, and no emitted polyline carries its name
(so it contributes no polyline vertices). -/
theorem absentTip_zero_attribution (commitsData : List Commit)
    (branchData : List Branch) (name tip : String)
    (htip : dlookup (branchTipsOf branchData) name = some tip)
    (habsent : tip ∉ commitsData.map Commit.sha) :
    (∀ p ∈ (processCommitData commitsData branchData).1, name ∉ p.2) ∧
    (∀ out, createBranchVisualization commitsData branchData = some out →
      ∀ tr ∈ out.branchTraces, tr.name ≠ name) := by
  have hcp : dlookup (commitParentsOf commitsData) tip = none := by
    rw [dlookup_eq_none_iff]
    intro hmem
    exact habsent ((mem_dkeys_commitParentsOf _ _).mp hmem)
  have hwalk : ∀ fuel, walkFrom (commitParentsOf commitsData) fuel tip = [] := by
    intro fuel
    cases fuel with
    | zero => rfl
    | succ f => exact walkFrom_succ_none _ _ _ hcp
  have hfst : (processCommitData commitsData branchData).1 =
      commitToBranchOf (branchTipsOf branchData) (commitParentsOf commitsData)
        (commitsData.length + 1) := rfl
  have h1 : ∀ p ∈ (processCommitData commitsData branchData).1,
      ∀ y ∈ p.2, y ≠ name := by
    rw [hfst]
    apply commitToBranchOf_vals
    intro nt hnt s hs
    by_cases hn : nt.1 = name
    · exfalso
      have hlk : dlookup (branchTipsOf branchData) nt.1 = some nt.2 :=
        mem_dlookup (nodup_dkeys_branchTipsOf branchData)
          (by rw [Prod.mk.eta]; exact hnt)
      rw [hn, htip] at hlk
      have htip2 : nt.2 = tip := by
        injection hlk with h'
        exact h'.symm
      rw [htip2, hwalk] at hs
      simp at hs
    · exact hn
  refine ⟨fun p hp hyn => h1 p hp name hyn rfl, ?_⟩
  intro out hout tr htr hne
  have hout' : prepareVisualizationData commitsData
      (processCommitData commitsData branchData).1
      (processCommitData commitsData branchData).2.1
      (processCommitData commitsData branchData).2.2
      (assignBranchColors branchData)
      (allocateLanes (branchData.map Branch.name)) = some out := hout
  obtain ⟨htrs, -⟩ := prepare_eq_parts _ _ _ _ _ _ _ hout'
  rcases tracesLoop_names _ _ _ _ _ htrs tr htr with ⟨p, hp, hpn⟩
  rw [hne] at hpn
  exact (h1 p hp name hpn) rfl

/-- Witness for C3: branch `ghost` tips at `"zzz"`, absent from the
one-commit list; it is attributed nothing and labels no polyline. -/
theorem absentTip_zero_attribution_witness :
    (dlookup (branchTipsOf [wGhost]) "ghost" = some "zzz") ∧
    ("zzz" ∉ [wCommitA].map Commit.sha) ∧
    ((∀ p ∈ (processCommitData [wCommitA] [wGhost]).1, "ghost" ∉ p.2) ∧
     (∀ out, createBranchVisualization [wCommitA] [wGhost] = some out →
       ∀ tr ∈ out.branchTraces, tr.name ≠ "ghost")) :=
  ⟨by decide, by decide,
   absentTip_zero_attribution [wCommitA] [wGhost] "ghost" "zzz" (by decide)
     (by decide)⟩

/-! ### Color assignment lemmas -/

theorem assignAux_keyword_invariant (n col : String)
    (hcol : firstKeywordColor n = some col) :
    ∀ (bs : List Branch) (acc : Dict String) (used : Nat),
      (n ∈ bs.map Branch.name ∨ dlookup acc n = some col) →
      dlookup (assignBranchColorsAux bs acc used) n = some col := by
  intro bs
  induction bs with
  | nil =>
      intro acc used h
      rcases h with h | h
      · simp at h
      · exact h
  | cons b rest ih =>
      intro acc used h
      cases hfk : firstKeywordColor b.name with
      | some color =>
          simp only [assignBranchColorsAux, hfk]
          by_cases hbn : b.name = n
          · have hcc : color = col := by
              rw [hbn] at hfk
              rw [hfk] at hcol
              injection hcol
            exact ih _ used (Or.inr (by rw [dlookup_dinsert, if_pos hbn, hcc]))
          · rcases h with h | h
            · have h2 : n = b.name ∨ n ∈ rest.map Branch.name := by simpa using h
              rcases h2 with rfl | h2
              · exact absurd rfl hbn
              · exact ih _ used (Or.inl h2)
            · exact ih _ used
                (Or.inr (by rw [dlookup_dinsert, if_neg hbn]; exact h))
      | none =>
          simp only [assignBranchColorsAux, hfk]
          have hbn : ¬ (b.name = n) := by
            intro e
            have hc := hcol
            rw [← e] at hc
            rw [hfk] at hc
            exact Option.noConfusion hc
          rcases h with h | h
          · have h2 : n = b.name ∨ n ∈ rest.map Branch.name := by simpa using h
            rcases h2 with rfl | h2
            · exact absurd rfl hbn
            · exact ih _ (used + 1) (Or.inl h2)
          · exact ih _ (used + 1)
              (Or.inr (by rw [dlookup_dinsert, if_neg hbn]; exact h))

/-- C7: a branch whose lowercased name contains at least one predefined
keyword as a substring is mapped by `assign_branch_colors` to the fixed
color of the first such keyword in the table's order (`find?` returns the
first entry whose keyword occurs in the lowercased name), regardless of the
other characters of the name. -/
theorem keyword_branch_color (branchData : List Branch) (b : Branch)
    (hb : b ∈ branchData) (kw col : String)
    (hfirst : branchColorsTable.find?
        (fun kv => pyStrIn kv.1 (pyLower b.name)) = some (kw, col)) :
    dlookup (assignBranchColors branchData) b.name = some col := by
  have hcol : firstKeywordColor b.name = some col := by
    rw [firstKeywordColor, hfirst]
    rfl
  exact assignAux_keyword_invariant b.name col hcol branchData [] 0
    (Or.inl (List.mem_map.mpr ⟨b, hb, rfl⟩))

/-- Witness for C7: `feature/x` matches the keyword `feature` first and
receives the purple `#9B59B6`. -/
theorem keyword_branch_color_witness :
    (wFeature ∈ [wMain, wFeature]) ∧
    (branchColorsTable.find?
        (fun kv => pyStrIn kv.1 (pyLower wFeature.name)) =
      some ("feature", "#9B59B6")) ∧
    dlookup (assignBranchColors [wMain, wFeature]) wFeature.name =
      some "#9B59B6" :=
  ⟨by decide, by decide,
   keyword_branch_color [wMain, wFeature] wFeature (by decide) "feature"
     "#9B59B6" (by decide)⟩

theorem assignAux_frame (n : String) :
    ∀ (bs : List Branch) (acc : Dict String) (used : Nat),
      n ∉ bs.map Branch.name →
      dlookup (assignBranchColorsAux bs acc used) n = dlookup acc n := by
  intro bs
  induction bs with
  | nil => intro acc used _; rfl
  | cons b rest ih =>
      intro acc used h
      have hbn : ¬ (b.name = n) := by
        intro e
        exact h (by simp [e])
      have hrest : n ∉ rest.map Branch.name := by
        intro hmem
        exact h (by simp [hmem])
      cases hfk : firstKeywordColor b.name with
      | some color =>
          simp only [assignBranchColorsAux, hfk]
          rw [ih _ used hrest, dlookup_dinsert, if_neg hbn]
      | none =>
          simp only [assignBranchColorsAux, hfk]
          rw [ih _ (used + 1) hrest, dlookup_dinsert, if_neg hbn]

theorem assignAux_default_colors :
    ∀ (bs : List Branch) (acc : Dict String) (used : Nat),
      (bs.map Branch.name).Nodup →
      ∀ (k : Nat) (br : Branch),
        (bs.filter (fun b => (firstKeywordColor b.name).isNone)).get? k =
          some br →
        dlookup (assignBranchColorsAux bs acc used) br.name =
          some ((defaultColors.get?
            ((used + k) % defaultColors.length)).getD "") := by
  intro bs
  induction bs with
  | nil => intro acc used _ k br hget; simp at hget
  | cons b rest ih =>
      intro acc used hnd k br hget
      have hndc : (b.name :: rest.map Branch.name).Nodup := by simpa using hnd
      have hnotin : b.name ∉ rest.map Branch.name :=
        (List.nodup_cons.mp hndc).1
      have hnd' : (rest.map Branch.name).Nodup := (List.nodup_cons.mp hndc).2
      cases hfk : firstKeywordColor b.name with
      | some color =>
          have hfil : (b :: rest).filter
              (fun b => (firstKeywordColor b.name).isNone) =
              rest.filter (fun b => (firstKeywordColor b.name).isNone) := by
            rw [List.filter_cons, if_neg (by simp [hfk])]
          rw [hfil] at hget
          simp only [assignBranchColorsAux, hfk]
          exact ih _ used hnd' k br hget
      | none =>
          have hfil : (b :: rest).filter
              (fun b => (firstKeywordColor b.name).isNone) =
              b :: rest.filter (fun b => (firstKeywordColor b.name).isNone) := by
            rw [List.filter_cons, if_pos (by simp [hfk])]
          rw [hfil] at hget
          simp only [assignBranchColorsAux, hfk]
          cases k with
          | zero =>
              have hbr : br = b := by
                rw [List.get?_cons_zero] at hget
                injection hget with h'
                exact h'.symm
              subst hbr
              rw [assignAux_frame br.name rest _ (used + 1) hnotin,
                  dlookup_dinsert, if_pos rfl]
              simp
          | succ j =>
              rw [List.get?_cons_succ] at hget
              have harith : used + (j + 1) = used + 1 + j := by omega
              rw [harith]
              exact ih _ (used + 1) hnd' j br hget

/-- Branch fixture matching no keyword. -/
def wZebra : Branch := ⟨"zebra", "b", false⟩

/-- C8: a branch matching no predefined keyword gets, as the k-th such
branch in input order (keyword-matched branches do not advance the palette
counter), the default-palette color at index `k` modulo the palette size —
cycling with wraparound beyond the palette length. -/
theorem default_palette_rotation (branchData : List Branch)
    (hnd : (branchData.map Branch.name).Nodup) (k : Nat) (br : Branch)
    (hk : (branchData.filter
        (fun b => (firstKeywordColor b.name).isNone)).get? k = some br) :
    dlookup (assignBranchColors branchData) br.name =
      some ((defaultColors.get? (k % defaultColors.length)).getD "") := by
  have h := assignAux_default_colors branchData [] 0 hnd k br hk
  simpa using h

/-- Witness for C8: in `[main, zebra]` the keyword-matched `main` does not
consume a palette slot, and `zebra` — the 0th non-matching branch — gets
the palette's first color. -/
theorem default_palette_rotation_witness :
    ([wMain, wZebra].map Branch.name).Nodup ∧
    (([wMain, wZebra].filter
        (fun b => (firstKeywordColor b.name).isNone)).get? 0 = some wZebra) ∧
    dlookup (assignBranchColors [wMain, wZebra]) wZebra.name =
      some "#1ABC9C" :=
  ⟨by decide, by decide,
   default_palette_rotation [wMain, wZebra] (by decide) 0 wZebra (by decide)⟩

/-! ### The dots loop: characterization of the emitted markers -/

/-- The membership list the dots loop observes for a sha: the stored list,
or `[]` for a missing key (what the `defaultdict` read returns). -/
def observedBranches (cb : Dict (List String)) (sha : String) : List String :=
  (dlookup cb sha).getD []

/-- The branch list a commit's markers iterate over (lines 123–125):
the membership list, or the `(detached)` sentinel when it is empty. -/
def dotBranches (cb : Dict (List String)) (sha : String) : List String :=
  match observedBranches cb sha with
  | [] => [detachedName]
  | l => l

/-- The single color shared by all of a commit's markers (lines 124–128):
gray when detached, else the color of the FIRST branch in the membership
list. -/
def dotColorFor (cb : Dict (List String)) (colors : Dict String)
    (sha : String) : String :=
  match observedBranches cb sha with
  | [] => detachedColor
  | b0 :: _ => (dlookup colors b0).getD ""

/-- The lane of a marker (line 132): the branch's lane, or the next free
integer `len(branch_lanes)` for a name with no allocated lane. -/
def laneFor (lanes : Dict Nat) (b : String) : Nat :=
  (dlookup lanes b).getD lanes.length

/-- The date placed on a commit's markers (line 120). -/
def dotDateFor (dates : Dict Nat) (sha : String) : Nat :=
  (dlookup dates sha).getD 0

theorem dgetD_fst (cb : Dict (List String)) (k : String) :
    (dgetD cb k).1 = observedBranches cb k := by
  unfold dgetD observedBranches
  cases dlookup cb k <;> rfl

theorem dgetD_snd_observed (cb : Dict (List String)) (k n : String) :
    observedBranches (dgetD cb k).2 n = observedBranches cb n := by
  unfold dgetD observedBranches
  cases h : dlookup cb k with
  | some l => rfl
  | none =>
      simp only []
      rw [dlookup_append]
      cases h2 : dlookup cb n with
      | some v => rfl
      | none =>
          by_cases hk : k = n <;> simp [dlookup, hk]

theorem dgetD_snd_preserve (cb : Dict (List String)) (k n : String)
    (v : List String) (h : dlookup cb n = some v) :
    dlookup (dgetD cb k).2 n = some v := by
  unfold dgetD
  cases h1 : dlookup cb k with
  | some l => exact h
  | none =>
      simp only []
      rw [dlookup_append, h]

theorem dgetD_snd_isSome (cb : Dict (List String)) (k : String) :
    (dlookup (dgetD cb k).2 k).isSome := by
  unfold dgetD
  cases h1 : dlookup cb k with
  | some l => simp [h1]
  | none =>
      simp only []
      rw [dlookup_append, h1]
      simp [dlookup]

theorem dgetD_snd_new (cb : Dict (List String)) (k n : String)
    (h : dlookup cb n = none) :
    dlookup (dgetD cb k).2 n = none ∨ dlookup (dgetD cb k).2 n = some [] := by
  unfold dgetD
  cases h1 : dlookup cb k with
  | some l => exact Or.inl h
  | none =>
      simp only []
      rw [dlookup_append, h]
      by_cases hk : k = n <;> simp [dlookup, hk]

theorem dotBranches_dgetD (cb : Dict (List String)) (k n : String) :
    dotBranches (dgetD cb k).2 n = dotBranches cb n := by
  unfold dotBranches
  rw [dgetD_snd_observed]

theorem dotColorFor_dgetD (cb : Dict (List String)) (colors : Dict String)
    (k n : String) :
    dotColorFor (dgetD cb k).2 colors n = dotColorFor cb colors n := by
  unfold dotColorFor
  rw [dgetD_snd_observed]

theorem dotsLoop_spec (dates : Dict Nat) (colors : Dict String)
    (lanes : Dict Nat) :
    ∀ (cs : List Commit) (cb : Dict (List String))
      (dx dy : List Nat) (dc dt : List String) (cb2 : Dict (List String)),
      dotsLoop dates colors lanes cs cb = some (dx, dy, dc, dt, cb2) →
      dx = cs.flatMap (fun c =>
        (dotBranches cb c.sha).map (fun _ => dotDateFor dates c.sha)) ∧
      dy = cs.flatMap (fun c =>
        (dotBranches cb c.sha).map (fun b => laneFor lanes b)) ∧
      dc = cs.flatMap (fun c =>
        (dotBranches cb c.sha).map (fun _ => dotColorFor cb colors c.sha)) ∧
      dt = cs.flatMap (fun c =>
        (dotBranches cb c.sha).map (fun _ =>
          dotText c (dotDateFor dates c.sha) (dotBranches cb c.sha))) ∧
      (∀ k v, dlookup cb k = some v → dlookup cb2 k = some v) ∧
      (∀ c ∈ cs, (dlookup cb2 c.sha).isSome) ∧
      (∀ k, dlookup cb k = none →
        dlookup cb2 k = none ∨ dlookup cb2 k = some []) := by
  intro cs
  induction cs with
  | nil =>
      intro cb dx dy dc dt cb2 h
      have h' : dotsLoop dates colors lanes [] cb =
          some ([], [], [], [], cb) := rfl
      rw [h'] at h
      simp only [Option.some.injEq, Prod.mk.injEq] at h
      obtain ⟨h1, h2, h3, h4, h5⟩ := h
      subst h1; subst h2; subst h3; subst h4; subst h5
      exact ⟨by simp, by simp, by simp, by simp,
             fun k v hv => hv, by simp, fun k hk => Or.inl hk⟩
  | cons c rest ih =>
      intro cb dx dy dc dt cb2 h
      simp only [dotsLoop, dgetD_fst] at h
      rcases Option.bind_eq_some.mp h with ⟨commitDate, hdate, h2⟩
      have hdd : dotDateFor dates c.sha = commitDate := by
        unfold dotDateFor
        rw [hdate]
        rfl
      cases hobs : observedBranches cb c.sha with
      | nil =>
          simp only [hobs, Option.some_bind] at h2
          rcases Option.bind_eq_some.mp h2 with ⟨outs, houts, h3⟩
          obtain ⟨rdx, rdy, rdc, rdt, rcb⟩ := outs
          simp only [Option.some.injEq, Prod.mk.injEq] at h3
          obtain ⟨h31, h32, h33, h34, h35⟩ := h3
          subst h31; subst h32; subst h33; subst h34; subst h35
          obtain ⟨ihx, ihy, ihc, iht, ihpres, ihsome, ihnew⟩ :=
            ih (dgetD cb c.sha).2 rdx rdy rdc rdt rcb houts
          have hdb : dotBranches cb c.sha = [detachedName] := by
            unfold dotBranches
            rw [hobs]
          have hcol : dotColorFor cb colors c.sha = detachedColor := by
            unfold dotColorFor
            rw [hobs]
          have hfunb : ∀ s : String,
              dotBranches (dgetD cb c.sha).2 s = dotBranches cb s :=
            fun s => dotBranches_dgetD cb c.sha s
          have hfunc : ∀ s : String,
              dotColorFor (dgetD cb c.sha).2 colors s =
                dotColorFor cb colors s :=
            fun s => dotColorFor_dgetD cb colors c.sha s
          refine ⟨?_, ?_, ?_, ?_, ?_, ?_, ?_⟩
          · simp only [List.flatMap_cons, hdb, hdd, ihx, hfunb]
          · simp only [List.flatMap_cons, hdb, ihy, hfunb, laneFor]
          · simp only [List.flatMap_cons, hdb, hcol, ihc, hfunb, hfunc]
          · simp only [List.flatMap_cons, hdb, hdd, iht, hfunb, hfunc]
          · exact fun k v hv => ihpres k v (dgetD_snd_preserve cb c.sha k v hv)
          · intro c2 hc2
            rcases List.mem_cons.mp hc2 with rfl | hc2
            · rcases Option.isSome_iff_exists.mp
                (dgetD_snd_isSome cb c2.sha) with ⟨v, hv⟩
              exact Option.isSome_iff_exists.mpr ⟨v, ihpres _ v hv⟩
            · exact ihsome c2 hc2
          · intro k hk
            rcases dgetD_snd_new cb c.sha k hk with hno | hso
            · exact ihnew k hno
            · exact Or.inr (ihpres k [] hso)
      | cons b0 bs =>
          simp only [hobs] at h2
          rcases Option.bind_eq_some.mp h2 with ⟨bc, hbc, h3⟩
          rcases Option.map_eq_some'.mp hbc with ⟨col, hcolk, rfl⟩
          rcases Option.bind_eq_some.mp h3 with ⟨outs, houts, h4⟩
          obtain ⟨rdx, rdy, rdc, rdt, rcb⟩ := outs
          simp only [Option.some.injEq, Prod.mk.injEq] at h4
          obtain ⟨h41, h42, h43, h44, h45⟩ := h4
          subst h41; subst h42; subst h43; subst h44; subst h45
          obtain ⟨ihx, ihy, ihc, iht, ihpres, ihsome, ihnew⟩ :=
            ih (dgetD cb c.sha).2 rdx rdy rdc rdt rcb houts
          have hdb : dotBranches cb c.sha = b0 :: bs := by
            unfold dotBranches
            rw [hobs]
          have hcol : dotColorFor cb colors c.sha = col := by
            unfold dotColorFor
            rw [hobs]
            simp [hcolk]
          have hfunb : ∀ s : String,
              dotBranches (dgetD cb c.sha).2 s = dotBranches cb s :=
            fun s => dotBranches_dgetD cb c.sha s
          have hfunc : ∀ s : String,
              dotColorFor (dgetD cb c.sha).2 colors s =
                dotColorFor cb colors s :=
            fun s => dotColorFor_dgetD cb colors c.sha s
          refine ⟨?_, ?_, ?_, ?_, ?_, ?_, ?_⟩
          · simp only [List.flatMap_cons, hdb, hdd, ihx, hfunb]
          · simp only [List.flatMap_cons, hdb, ihy, hfunb, laneFor]
          · simp only [List.flatMap_cons, hdb, hcol, ihc, hfunb, hfunc]
          · simp only [List.flatMap_cons, hdb, hdd, iht, hfunb, hfunc]
          · exact fun k v hv => ihpres k v (dgetD_snd_preserve cb c.sha k v hv)
          · intro c2 hc2
            rcases List.mem_cons.mp hc2 with rfl | hc2
            · rcases Option.isSome_iff_exists.mp
                (dgetD_snd_isSome cb c2.sha) with ⟨v, hv⟩
              exact Option.isSome_iff_exists.mpr ⟨v, ihpres _ v hv⟩
            · exact ihsome c2 hc2
          · intro k hk
            rcases dgetD_snd_new cb c.sha k hk with hno | hso
            · exact ihnew k hno
            · exact Or.inr (ihpres k [] hso)

/-- C2: the four dot lists are exactly, commit by commit in input order, one
marker per branch name in the commit's membership list — each marker's x is
the commit's date, its y is that branch's lane (`laneFor`), and ALL of a
commit's markers carry the same color: the color assigned to the FIRST
branch in its membership list (a commit in two branches thus yields two
markers, one per lane, sharing the first branch's color; `dotBranches`
substitutes the detached sentinel when the membership list is empty). -/
theorem markers_per_membership (commitsData : List Commit)
    (cb : Dict (List String)) (dates : Dict Nat) (cp : Dict (List String))
    (colors : Dict String) (lanes : Dict Nat) (out : PrepOut)
    (h : prepareVisualizationData commitsData cb dates cp colors lanes =
      some out) :
    out.dotsX = commitsData.flatMap (fun c =>
      (dotBranches cb c.sha).map (fun _ => dotDateFor dates c.sha)) ∧
    out.dotsY = commitsData.flatMap (fun c =>
      (dotBranches cb c.sha).map (fun b => laneFor lanes b)) ∧
    out.dotsColor = commitsData.flatMap (fun c =>
      (dotBranches cb c.sha).map (fun _ => dotColorFor cb colors c.sha)) ∧
    out.dotsText = commitsData.flatMap (fun c =>
      (dotBranches cb c.sha).map (fun _ =>
        dotText c (dotDateFor dates c.sha) (dotBranches cb c.sha))) := by
  obtain ⟨-, hdl⟩ := prepare_eq_parts _ _ _ _ _ _ _ h
  obtain ⟨hx, hy, hc, ht, -, -, -⟩ :=
    dotsLoop_spec dates colors lanes commitsData cb _ _ _ _ _ hdl
  exact ⟨hx, hy, hc, ht⟩

/-- The layout computed for the shared-tip two-branch fixture. -/
def wOutShared : PrepOut :=
  ⟨[0, 0, 1, 1], [0, 1, 0, 1],
   ["#2ECC71", "#2ECC71", "#2ECC71", "#2ECC71"],
   [dotText wCommitA 0 ["main", "feature/x"],
    dotText wCommitA 0 ["main", "feature/x"],
    dotText wCommitB 1 ["main", "feature/x"],
    dotText wCommitB 1 ["main", "feature/x"]],
   [⟨[0, 1], [0, 0], "#2ECC71", "main"⟩,
    ⟨[0, 1], [1, 1], "#9B59B6", "feature/x"⟩],
   [("b", ["main", "feature/x"]), ("a", ["main", "feature/x"])]⟩

/-- The membership dictionary of the shared-tip fixture. -/
def wCbShared : Dict (List String) :=
  [("b", ["main", "feature/x"]), ("a", ["main", "feature/x"])]

set_option maxRecDepth 4000 in
/-- Witness for C2 at the shared-tip fixture: commit `b` belongs to `main`
and `feature/x`; its two markers sit at lanes 0 and 1 and both wear
`main`'s green. -/
theorem markers_per_membership_witness :
    (prepareVisualizationData [wCommitA, wCommitB] wCbShared
        [("a", 0), ("b", 1)] [] [("main", "#2ECC71"), ("feature/x", "#9B59B6")]
        [("main", 0), ("feature/x", 1)] = some wOutShared) ∧
    (wOutShared.dotsX = [wCommitA, wCommitB].flatMap (fun c =>
        (dotBranches wCbShared c.sha).map (fun _ =>
          dotDateFor [("a", 0), ("b", 1)] c.sha)) ∧
     wOutShared.dotsY = [wCommitA, wCommitB].flatMap (fun c =>
        (dotBranches wCbShared c.sha).map (fun b =>
          laneFor [("main", 0), ("feature/x", 1)] b)) ∧
     wOutShared.dotsColor = [wCommitA, wCommitB].flatMap (fun c =>
        (dotBranches wCbShared c.sha).map (fun _ =>
          dotColorFor wCbShared [("main", "#2ECC71"), ("feature/x", "#9B59B6")]
            c.sha)) ∧
     wOutShared.dotsText = [wCommitA, wCommitB].flatMap (fun c =>
        (dotBranches wCbShared c.sha).map (fun _ =>
          dotText c (dotDateFor [("a", 0), ("b", 1)] c.sha)
            (dotBranches wCbShared c.sha)))) :=
  ⟨by decide,
   markers_per_membership [wCommitA, wCommitB] wCbShared [("a", 0), ("b", 1)]
     [] [("main", "#2ECC71"), ("feature/x", "#9B59B6")]
     [("main", 0), ("feature/x", 1)] wOutShared (by decide)⟩

/-- C10: `prepare_visualization_data` mutates its `commit_to_branch`
argument — the `defaultdict` read inserts `[]` for every input commit sha
that had no membership entry, so afterwards every input commit sha is a
key, existing entries being left unchanged. -/
theorem prepare_mutates_commitToBranch (commitsData : List Commit)
    (cb : Dict (List String)) (dates : Dict Nat) (cp : Dict (List String))
    (colors : Dict String) (lanes : Dict Nat) (out : PrepOut)
    (h : prepareVisualizationData commitsData cb dates cp colors lanes =
      some out) :
    (∀ c ∈ commitsData, (dlookup out.commitToBranchAfter c.sha).isSome) ∧
    (∀ c ∈ commitsData, dlookup cb c.sha = none →
      dlookup out.commitToBranchAfter c.sha = some []) ∧
    (∀ k v, dlookup cb k = some v →
      dlookup out.commitToBranchAfter k = some v) := by
  obtain ⟨-, hdl⟩ := prepare_eq_parts _ _ _ _ _ _ _ h
  obtain ⟨-, -, -, -, hpres, hsome, hnew⟩ :=
    dotsLoop_spec dates colors lanes commitsData cb _ _ _ _ _ hdl
  refine ⟨hsome, ?_, hpres⟩
  intro c hc hnone
  rcases hnew c.sha hnone with hno | hso
  · exfalso
    have hs := hsome c hc
    rw [hno] at hs
    simp at hs
  · exact hso

/-- The layout computed for a single detached commit with no branches. -/
def wOutDetached : PrepOut :=
  ⟨[0], [0], [detachedColor], [dotText wCommitA 0 [detachedName]], [],
   [("a", [])]⟩

set_option maxRecDepth 4000 in
/-- Witness for C10: commit `a` has no membership entry; after the call the
mapping gained the key `"a"` bound to `[]`. -/
theorem prepare_mutates_commitToBranch_witness :
    (prepareVisualizationData [wCommitA] [] [("a", 0)] [] [] [] =
      some wOutDetached) ∧
    ((∀ c ∈ [wCommitA], (dlookup wOutDetached.commitToBranchAfter
        c.sha).isSome) ∧
     (∀ c ∈ [wCommitA], dlookup ([] : Dict (List String)) c.sha = none →
       dlookup wOutDetached.commitToBranchAfter c.sha = some []) ∧
     (∀ k v, dlookup ([] : Dict (List String)) k = some v →
       dlookup wOutDetached.commitToBranchAfter k = some v)) :=
  ⟨by decide,
   prepare_mutates_commitToBranch [wCommitA] [] [("a", 0)] [] [] []
     wOutDetached (by decide)⟩

/-! ### The traces loop: characterization of the emitted polylines -/

instance pairDateLeTotal : IsTotal (String × Nat) (fun a b => a.2 ≤ b.2) :=
  ⟨fun a b => Nat.le_total a.2 b.2⟩

instance pairDateLeTrans : IsTrans (String × Nat) (fun a b => a.2 ≤ b.2) :=
  ⟨fun _ _ _ h1 h2 => Nat.le_trans h1 h2⟩

/-- Ascending sort of a date list (spec §4.4 "sort ascending by date"). -/
def sortDates (l : List Nat) : List Nat :=
  l.insertionSort (fun a b => a ≤ b)

/-- A branch's member-commit dates: the dates of the membership entries
that contain the branch, in dictionary order. -/
def branchMemberDates (cb : Dict (List String)) (dates : Dict Nat)
    (bn : String) : List Nat :=
  (cb.filter (fun p => bn ∈ p.2)).map (fun p => (dlookup dates p.1).getD 0)

/-- The polyline a branch-lane entry contributes: none when the branch has
no member commit, else one trace whose x-values are the member dates sorted
ascending, whose y-values all equal the branch's lane, in the branch's
assigned color. -/
def traceFor (cb : Dict (List String)) (dates : Dict Nat)
    (colors : Dict String) (bl : String × Nat) : Option Trace :=
  let ds := sortDates (branchMemberDates cb dates bl.1)
  if ds = [] then none
  else some ⟨ds, ds.map (fun _ => bl.2), (dlookup colors bl.1).getD "", bl.1⟩

theorem sortByDate_snd (cb : Dict (List String)) (dates : Dict Nat)
    (bn : String) (pairs : List (String × Nat))
    (hmap : pairs = (cb.filter (fun p => bn ∈ p.2)).map
      (fun p => (p.1, (dlookup dates p.1).getD 0))) :
    (sortByDate pairs).map Prod.snd =
      sortDates (branchMemberDates cb dates bn) := by
  have hpairs_snd : pairs.map Prod.snd = branchMemberDates cb dates bn := by
    rw [hmap, branchMemberDates, List.map_map]
    rfl
  unfold sortByDate sortDates
  have hperm : ((List.insertionSort (fun a b : String × Nat => a.2 ≤ b.2)
        pairs).map Prod.snd).Perm
      (List.insertionSort (fun a b : Nat => a ≤ b)
        (branchMemberDates cb dates bn)) := by
    have h1 := (List.perm_insertionSort
      (fun a b : String × Nat => a.2 ≤ b.2) pairs).map Prod.snd
    rw [hpairs_snd] at h1
    exact h1.trans
      (List.perm_insertionSort (fun a b : Nat => a ≤ b) _).symm
  have hsorted1 : List.Sorted (fun a b : Nat => a ≤ b)
      ((List.insertionSort (fun a b : String × Nat => a.2 ≤ b.2)
        pairs).map Prod.snd) := by
    rw [List.Sorted, List.pairwise_map]
    exact List.sorted_insertionSort (fun a b : String × Nat => a.2 ≤ b.2) pairs
  have hsorted2 := List.sorted_insertionSort (fun a b : Nat => a ≤ b)
    (branchMemberDates cb dates bn)
  exact List.eq_of_perm_of_sorted hperm hsorted1 hsorted2

theorem tracesLoop_spec (cb : Dict (List String)) (dates : Dict Nat)
    (colors : Dict String) :
    ∀ (lanes : List (String × Nat)) (trs : List Trace),
      tracesLoop cb dates colors lanes = some trs →
      trs = lanes.filterMap (traceFor cb dates colors) := by
  intro lanes
  induction lanes with
  | nil =>
      intro trs h
      have h' : ([] : List Trace) = trs := by simpa [tracesLoop] using h
      rw [← h']
      simp
  | cons bl rest ih =>
      obtain ⟨bn, lane⟩ := bl
      intro trs h
      simp only [tracesLoop] at h
      rcases Option.bind_eq_some.mp h with ⟨bc, hbc, h2⟩
      rcases Option.bind_eq_some.mp h2 with ⟨pairs, hpairs, h3⟩
      rcases Option.bind_eq_some.mp h3 with ⟨rest2, hrest, h4⟩
      obtain ⟨hmap, -⟩ := memberPairs_spec hpairs
      have hsnd := sortByDate_snd cb dates bn pairs hmap
      have hlen : (sortByDate pairs).length =
          (sortDates (branchMemberDates cb dates bn)).length := by
        rw [← List.length_map (sortByDate pairs) Prod.snd, hsnd]
      rw [List.filterMap_cons]
      by_cases hemp : (sortByDate pairs).isEmpty
      · have hnil : sortDates (branchMemberDates cb dates bn) = [] := by
          rw [← List.length_eq_zero, ← hlen]
          rw [List.isEmpty_iff] at hemp
          rw [hemp]
          rfl
        rw [if_pos hemp] at h4
        have h4' : rest2 = trs := by simpa using h4
        subst h4'
        have htf : traceFor cb dates colors (bn, lane) = none := by
          simp only [traceFor]
          rw [if_pos hnil]
        rw [htf]
        exact ih rest2 hrest
      · have hnenil : sortDates (branchMemberDates cb dates bn) ≠ [] := by
          intro he
          have : (sortByDate pairs).length = 0 := by
            rw [hlen, he]
            rfl
          rw [List.isEmpty_iff] at hemp
          exact hemp (List.length_eq_zero.mp this)
        rw [if_neg hemp] at h4
        have h4' : (⟨(sortByDate pairs).map Prod.snd,
            (sortByDate pairs).map (fun _ => lane), bc, bn⟩ : Trace) :: rest2 =
            trs := by
          simpa using h4
        subst h4'
        have htf : traceFor cb dates colors (bn, lane) =
            some ⟨sortDates (branchMemberDates cb dates bn),
              (sortDates (branchMemberDates cb dates bn)).map (fun _ => lane),
              (dlookup colors bn).getD "", bn⟩ := by
          simp only [traceFor]
          rw [if_neg hnenil]
        rw [htf]
        have hy : (sortByDate pairs).map (fun _ => lane) =
            (sortDates (branchMemberDates cb dates bn)).map (fun _ => lane) := by
          rw [List.map_const', List.map_const', hlen]
        have hcolget : (dlookup colors bn).getD "" = bc := by
          rw [hbc]
          rfl
        rw [ih rest2 hrest, hsnd, hy, hcolget]

/-- C6: the branch polylines are exactly, branch-lane by branch-lane, the
`traceFor` polylines — a branch with at least one member commit emits
exactly one polyline whose x-values are its member dates sorted ascending,
all placed at the branch's lane and colored with the branch's assigned
color; a branch with zero members emits none — and every emitted polyline
has non-decreasing (sorted) x-values. -/
theorem polylines_per_branch (commitsData : List Commit)
    (cb : Dict (List String)) (dates : Dict Nat) (cp : Dict (List String))
    (colors : Dict String) (lanes : Dict Nat) (out : PrepOut)
    (h : prepareVisualizationData commitsData cb dates cp colors lanes =
      some out) :
    out.branchTraces = lanes.filterMap (traceFor cb dates colors) ∧
    (∀ tr ∈ out.branchTraces, tr.x ≠ [] ∧
      List.Sorted (fun a b : Nat => a ≤ b) tr.x) := by
  obtain ⟨htr, -⟩ := prepare_eq_parts _ _ _ _ _ _ _ h
  have heq := tracesLoop_spec cb dates colors lanes out.branchTraces htr
  refine ⟨heq, ?_⟩
  intro tr htrm
  rw [heq] at htrm
  rcases List.mem_filterMap.mp htrm with ⟨bl, _, hf⟩
  simp only [traceFor] at hf
  by_cases hds : sortDates (branchMemberDates cb dates bl.1) = []
  · rw [if_pos hds] at hf
    cases hf
  · rw [if_neg hds] at hf
    have htr' : (⟨sortDates (branchMemberDates cb dates bl.1),
        (sortDates (branchMemberDates cb dates bl.1)).map (fun _ => bl.2),
        (dlookup colors bl.1).getD "", bl.1⟩ : Trace) = tr := by
      simpa using hf
    rw [← htr']
    exact ⟨hds, List.sorted_insertionSort (fun a b => a ≤ b) _⟩

/-- The membership dictionary of the single-branch fixture. -/
def wCbMain : Dict (List String) := [("b", ["main"]), ("a", ["main"])]

/-- The layout computed for the single-branch fixture with commits supplied
in reverse date order (so the polyline must sort them). -/
def wOutMain : PrepOut :=
  ⟨[1, 0], [0, 0], ["#2ECC71", "#2ECC71"],
   [dotText wCommitB 1 ["main"], dotText wCommitA 0 ["main"]],
   [⟨[0, 1], [0, 0], "#2ECC71", "main"⟩],
   [("b", ["main"]), ("a", ["main"])]⟩

set_option maxRecDepth 4000 in
/-- Witness for C6: `main` (two member commits, supplied out of date order)
emits one polyline with ascending x `[0, 1]` at lane 0; `zebra` (zero
member commits) emits none. -/
theorem polylines_per_branch_witness :
    (prepareVisualizationData [wCommitB, wCommitA] wCbMain [("a", 0), ("b", 1)]
        [] [("main", "#2ECC71"), ("zebra", "#1ABC9C")]
        [("main", 0), ("zebra", 1)] = some wOutMain) ∧
    (wOutMain.branchTraces =
        ([("main", 0), ("zebra", 1)] : Dict Nat).filterMap
          (traceFor wCbMain [("a", 0), ("b", 1)]
            [("main", "#2ECC71"), ("zebra", "#1ABC9C")]) ∧
     (∀ tr ∈ wOutMain.branchTraces, tr.x ≠ [] ∧
        List.Sorted (fun a b : Nat => a ≤ b) tr.x)) :=
  ⟨by decide,
   polylines_per_branch [wCommitB, wCommitA] wCbMain [("a", 0), ("b", 1)] []
     [("main", "#2ECC71"), ("zebra", "#1ABC9C")] [("main", 0), ("zebra", 1)]
     wOutMain (by decide)⟩

set_option maxRecDepth 8000 in
/-- C9 counterexample: the claim fails as stated when a branch is literally
named `"(detached)"`.  With `branch_lanes = [("(detached)", 0)]` — one
branch name holding lanes 0 through n-1 for n = 1 — the marker of a
commit with empty membership is emitted at that branch's existing lane 0
(the `.get` default never fires), NOT at lane n = 1, and it shares its lane
with a branch name. -/
theorem detached_lane_counterexample :
    prepareVisualizationData [wCommitA] [] [("a", 0)] []
        [(detachedName, "#FFFFFF")] [(detachedName, 0)] =
      some ⟨[0], [0], [detachedColor], [dotText wCommitA 0 [detachedName]],
        [], [("a", [])]⟩ ∧
    ([(detachedName, 0)].map Prod.snd).Perm (List.range 1) ∧
    (0 : Nat) ≠ 1 := by
  refine ⟨by decide, by decide, by decide⟩

/-- C9 (amended): provided additionally that none of the branch names is
the literal sentinel string `"(detached)"`, when the lane mapping assigns
its n branch names exactly the lanes 0 through n-1, every marker of a
commit with empty membership is placed at lane n — the next free integer, a
lane shared by no branch name — so lane assignment including the sentinel
stays injective. -/
theorem detached_lane_next_free (commitsData : List Commit)
    (cb : Dict (List String)) (dates : Dict Nat) (cp : Dict (List String))
    (colors : Dict String) (lanes : Dict Nat) (out : PrepOut) (n : Nat)
    (hn : (lanes.map Prod.snd).Perm (List.range n))
    (hdet : dlookup lanes detachedName = none)
    (h : prepareVisualizationData commitsData cb dates cp colors lanes =
      some out) :
    out.dotsY = commitsData.flatMap (fun c =>
      (dotBranches cb c.sha).map (fun b => laneFor lanes b)) ∧
    (∀ c ∈ commitsData, observedBranches cb c.sha = [] →
      (dotBranches cb c.sha).map (fun b => laneFor lanes b) = [n]) ∧
    (∀ bl ∈ lanes, bl.2 ≠ n) := by
  have hlanelen : lanes.length = n := by
    have := hn.length_eq
    simpa using this
  obtain ⟨-, hdl⟩ := prepare_eq_parts _ _ _ _ _ _ _ h
  obtain ⟨-, hy, -, -, -, -, -⟩ :=
    dotsLoop_spec dates colors lanes commitsData cb _ _ _ _ _ hdl
  refine ⟨hy, ?_, ?_⟩
  · intro c _ hobs
    have hdb : dotBranches cb c.sha = [detachedName] := by
      unfold dotBranches
      rw [hobs]
    rw [hdb]
    simp only [List.map_cons, List.map_nil, laneFor, hdet, Option.getD_none]
    rw [hlanelen]
  · intro bl hbl he
    have hmem : bl.2 ∈ lanes.map Prod.snd := List.mem_map.mpr ⟨bl, hbl, rfl⟩
    have : bl.2 ∈ List.range n := hn.mem_iff.mp hmem
    rw [List.mem_range] at this
    omega

set_option maxRecDepth 8000 in
/-- Witness for C9 (amended) at a one-branch fixture: `main` holds lane 0,
`"(detached)"` is not a branch name, and the membership-less commit's
marker lands at lane 1 = n, distinct from every branch lane. -/
theorem detached_lane_next_free_witness :
    (([(("main" : String), (0 : Nat))].map Prod.snd).Perm (List.range 1)) ∧
    (dlookup [(("main" : String), (0 : Nat))] detachedName = none) ∧
    (prepareVisualizationData [wCommitA] [] [("a", 0)] []
        [("main", "#2ECC71")] [("main", 0)] =
      some ⟨[0], [1], [detachedColor], [dotText wCommitA 0 [detachedName]],
        [], [("a", [])]⟩) ∧
    ((⟨[0], [1], [detachedColor], [dotText wCommitA 0 [detachedName]],
        [], [("a", [])]⟩ : PrepOut).dotsY =
        [wCommitA].flatMap (fun c => (dotBranches [] c.sha).map
          (fun b => laneFor [("main", 0)] b)) ∧
     (∀ c ∈ [wCommitA], observedBranches [] c.sha = [] →
       (dotBranches [] c.sha).map (fun b => laneFor [("main", 0)] b) = [1]) ∧
     (∀ bl ∈ [(("main" : String), (0 : Nat))], bl.2 ≠ 1)) :=
  ⟨by decide, by decide, by decide,
   detached_lane_next_free [wCommitA] [] [("a", 0)] [] [("main", "#2ECC71")]
     [("main", 0)] _ 1 (by decide) (by decide) (by decide)⟩

/-! ### Empty-input behavior -/

theorem walkFrom_nil_cp (fuel : Nat) (cur : String) :
    walkFrom [] fuel cur = [] := by
  cases fuel with
  | zero => rfl
  | succ f => exact walkFrom_succ_none [] f cur rfl

theorem commitToBranchOf_nil_cp (tips : Dict String) (fuel : Nat) :
    commitToBranchOf tips [] fuel = [] := by
  unfold commitToBranchOf
  simp only [walkFrom_nil_cp, List.foldl_nil]
  exact List.foldl_fixed tips

theorem assignAux_total (n : String) :
    ∀ (bs : List Branch) (acc : Dict String) (used : Nat),
      (n ∈ bs.map Branch.name ∨ (dlookup acc n).isSome) →
      (dlookup (assignBranchColorsAux bs acc used) n).isSome := by
  intro bs
  induction bs with
  | nil =>
      intro acc used h
      rcases h with h | h
      · simp at h
      · exact h
  | cons b rest ih =>
      intro acc used h
      have hnext : ∀ (col : String) (used2 : Nat),
          (dlookup (assignBranchColorsAux rest
            (dinsert b.name col acc) used2) n).isSome := by
        intro col used2
        by_cases hbn : b.name = n
        · exact ih _ used2 (Or.inr (by rw [dlookup_dinsert, if_pos hbn]; rfl))
        · rcases h with h | h
          · have h2 : n = b.name ∨ n ∈ rest.map Branch.name := by simpa using h
            rcases h2 with rfl | h2
            · exact absurd rfl hbn
            · exact ih _ used2 (Or.inl h2)
          · exact ih _ used2
              (Or.inr (by rw [dlookup_dinsert, if_neg hbn]; exact h))
      cases hfk : firstKeywordColor b.name with
      | some color =>
          simp only [assignBranchColorsAux, hfk]
          exact hnext color used
      | none =>
          simp only [assignBranchColorsAux, hfk]
          exact hnext _ (used + 1)

theorem assignBranchColors_total (branchData : List Branch) (n : String)
    (h : n ∈ branchData.map Branch.name) :
    (dlookup (assignBranchColors branchData) n).isSome :=
  assignAux_total n branchData [] 0 (Or.inl h)

theorem allocateLanes_keys (names : List String) :
    ∀ bl ∈ allocateLanes names, bl.1 ∈ names := by
  unfold allocateLanes
  suffices h : ∀ (acc : Dict Nat),
      (∀ bl ∈ acc, bl.1 ∈ names) →
      ∀ bl ∈ names.foldl
        (fun d n => if (dlookup d n).isSome then d else d ++ [(n, d.length)])
        acc, bl.1 ∈ names by
    exact h [] (by simp)
  have hgen : ∀ (ns : List String) (acc : Dict Nat),
      (∀ bl ∈ acc, bl.1 ∈ names) → (∀ x ∈ ns, x ∈ names) →
      ∀ bl ∈ ns.foldl
        (fun d n => if (dlookup d n).isSome then d else d ++ [(n, d.length)])
        acc, bl.1 ∈ names := by
    intro ns
    induction ns with
    | nil => exact fun acc hacc _ => hacc
    | cons x xs ih =>
        intro acc hacc hns
        simp only [List.foldl_cons]
        refine ih _ ?_ (fun y hy => hns y (List.mem_cons_of_mem _ hy))
        by_cases hx : (dlookup acc x).isSome
        · rw [if_pos hx]
          exact hacc
        · rw [if_neg hx]
          intro bl hbl
          rcases List.mem_append.mp hbl with hbl | hbl
          · exact hacc bl hbl
          · rcases List.mem_singleton.mp hbl with rfl
            exact hns x (List.mem_cons_self _ _)
  exact fun acc hacc => hgen names acc hacc (fun x hx => hx)

theorem memberPairs_nil_cb (dates : Dict Nat) (bn : String) :
    memberPairs [] dates bn = some [] := rfl

theorem tracesLoop_empty_cb (dates : Dict Nat) (colors : Dict String) :
    ∀ lanes : List (String × Nat),
      (∀ bl ∈ lanes, (dlookup colors bl.1).isSome) →
      tracesLoop [] dates colors lanes = some [] := by
  intro lanes
  induction lanes with
  | nil => intro _; rfl
  | cons bl rest ih =>
      obtain ⟨bn, lane⟩ := bl
      intro hcol
      rcases Option.isSome_iff_exists.mp
        (hcol (bn, lane) (List.mem_cons_self _ _)) with ⟨c, hc⟩
      simp only [tracesLoop, hc, Option.some_bind, memberPairs_nil_cb]
      rw [ih (fun bl2 hbl2 => hcol bl2 (List.mem_cons_of_mem _ hbl2))]
      rfl

theorem dotsLoop_total_detached (dates : Dict Nat) (colors : Dict String)
    (lanes : Dict Nat) :
    ∀ (cs : List Commit) (cb : Dict (List String)),
      (∀ c ∈ cs, (dlookup dates c.sha).isSome) →
      (∀ c ∈ cs, observedBranches cb c.sha = []) →
      ∃ res, dotsLoop dates colors lanes cs cb = some res := by
  intro cs
  induction cs with
  | nil => exact fun cb _ _ => ⟨([], [], [], [], cb), rfl⟩
  | cons c rest ih =>
      intro cb hdates hobs
      rcases Option.isSome_iff_exists.mp
        (hdates c (List.mem_cons_self _ _)) with ⟨d, hd⟩
      rcases ih (dgetD cb c.sha).2
        (fun c2 hc2 => hdates c2 (List.mem_cons_of_mem _ hc2))
        (fun c2 hc2 => by
          rw [dgetD_snd_observed]
          exact hobs c2 (List.mem_cons_of_mem _ hc2)) with ⟨res, hres⟩
      obtain ⟨rdx, rdy, rdc, rdt, rcb⟩ := res
      refine ⟨?_, ?_⟩
      · exact ([detachedName].map (fun _ => d) ++ rdx,
          [detachedName].map (fun b => (dlookup lanes b).getD lanes.length)
            ++ rdy,
          [detachedName].map (fun _ => detachedColor) ++ rdc,
          [detachedName].map (fun _ => dotText c d [detachedName]) ++ rdt,
          rcb)
      · simp only [dotsLoop, dgetD_fst, hd, Option.some_bind,
          hobs c (List.mem_cons_self _ _), hres]

theorem flatMap_singleton_map {α β : Type} (l : List α) (f : α → β) :
    l.flatMap (fun x => [f x]) = l.map f := by
  induction l with
  | nil => rfl
  | cons a t ih =>
      simp only [List.flatMap_cons, List.map_cons, ih]
      rfl

theorem emptyCommits_layout (branchData : List Branch) :
    createBranchVisualization [] branchData =
      some ⟨[], [], [], [], [], []⟩ := by
  have hcolors : ∀ bl ∈ allocateLanes (branchData.map Branch.name),
      (dlookup (assignBranchColors branchData) bl.1).isSome := by
    intro bl hbl
    exact assignBranchColors_total branchData bl.1
      (allocateLanes_keys (branchData.map Branch.name) bl hbl)
  have htr := tracesLoop_empty_cb [] (assignBranchColors branchData)
      (allocateLanes (branchData.map Branch.name)) hcolors
  show prepareVisualizationData []
      (commitToBranchOf (branchTipsOf branchData) [] 1) [] []
      (assignBranchColors branchData)
      (allocateLanes (branchData.map Branch.name)) =
    some ⟨[], [], [], [], [], []⟩
  rw [commitToBranchOf_nil_cp]
  unfold prepareVisualizationData
  rw [htr]
  rfl

theorem emptyBranches_layout (commitsData : List Commit) :
    ∃ cb2, createBranchVisualization commitsData [] =
      some ⟨commitsData.map (fun c =>
              dotDateFor (commitDatesOf commitsData) c.sha),
            commitsData.map (fun _ => 0),
            commitsData.map (fun _ => detachedColor),
            commitsData.map (fun c =>
              dotText c (dotDateFor (commitDatesOf commitsData) c.sha)
                [detachedName]),
            [], cb2⟩ := by
  have hdates : ∀ c ∈ commitsData,
      (dlookup (commitDatesOf commitsData) c.sha).isSome := by
    intro c hc
    rw [← mem_dkeys_iff_isSome, mem_dkeys_commitDatesOf]
    exact List.mem_map.mpr ⟨c, hc, rfl⟩
  have hobs : ∀ c ∈ commitsData, observedBranches [] c.sha = [] :=
    fun c _ => rfl
  rcases dotsLoop_total_detached (commitDatesOf commitsData) [] []
    commitsData [] hdates hobs with ⟨res, hres⟩
  obtain ⟨rdx, rdy, rdc, rdt, rcb⟩ := res
  obtain ⟨hx, hy, hc2, ht, -, -, -⟩ :=
    dotsLoop_spec (commitDatesOf commitsData) [] [] commitsData []
      rdx rdy rdc rdt rcb hres
  refine ⟨rcb, ?_⟩
  show prepareVisualizationData commitsData []
      (commitDatesOf commitsData) (commitParentsOf commitsData) [] [] = _
  unfold prepareVisualizationData
  have htr0 : tracesLoop [] (commitDatesOf commitsData) [] [] = some [] := rfl
  rw [htr0]
  simp only [Option.some_bind]
  rw [hres]
  simp only [Option.some_bind]
  have hdb : ∀ sha, dotBranches [] sha = [detachedName] := fun _ => rfl
  have hcolf : ∀ sha, dotColorFor ([] : Dict (List String)) [] sha =
      detachedColor := fun _ => rfl
  rw [hx, hy, hc2, ht]
  simp only [hdb, hcolf, List.map_cons, List.map_nil]
  simp only [laneFor, dlookup, Option.getD_none, List.length_nil,
    Option.some.injEq, PrepOut.mk.injEq]
  exact ⟨flatMap_singleton_map _ _, flatMap_singleton_map _ _,
    flatMap_singleton_map _ _, flatMap_singleton_map _ _, trivial, trivial⟩

set_option maxRecDepth 8000 in
/-- C1 counterexample: with a nonempty commit list and an EMPTY branch
list the layout is not empty — each commit yields a detached (gray) marker,
so the four dot lists are nonempty, contradicting "no commits or no
branches → no polylines AND no markers". -/
theorem empty_branches_markers_counterexample :
    createBranchVisualization [wCommitA] [] =
      some ⟨[0], [0], [detachedColor], [dotText wCommitA 0 [detachedName]],
        [], [("a", [])]⟩ ∧
    ([(0 : Nat)] : List Nat) ≠ [] :=
  ⟨by decide, by decide⟩

/-- C1 (amended): an empty COMMIT list yields the empty layout (no
polylines, no markers) for every branch list; an empty BRANCH list yields
no polylines, but — contrary to the claim as stated — every input commit
produces exactly one detached marker (gray, at the sentinel lane 0). -/
theorem empty_input_layout :
    (∀ branchData : List Branch,
      createBranchVisualization [] branchData =
        some ⟨[], [], [], [], [], []⟩) ∧
    (∀ commitsData : List Commit,
      ∃ cb2, createBranchVisualization commitsData [] =
        some ⟨commitsData.map (fun c =>
                dotDateFor (commitDatesOf commitsData) c.sha),
              commitsData.map (fun _ => 0),
              commitsData.map (fun _ => detachedColor),
              commitsData.map (fun c =>
                dotText c (dotDateFor (commitDatesOf commitsData) c.sha)
                  [detachedName]),
              [], cb2⟩) :=
  ⟨emptyCommits_layout, emptyBranches_layout⟩
